import Mathlib

/-!
The package `tusc`: a client for the tus resumable-upload protocol.

A shallow embedding of the Go package `tusc` (files `errors.go`, `config.go`,
`store.go`, `upload.go`, `client.go`, `manager.go`) together with theorems about it.

Modelling conventions

* `int64` values are `Int`; the only arithmetic the package performs on them that can
  leave the 64-bit range is in `Upload.Progress`, which wraps explicitly (`wrapInt64`).
* A Go `error` result is `Option Err` (`none` is `nil`); a runtime panic is `Err.panic`.
* Pointers that may be `nil` are `Option`s; mutable receivers are passed and returned.
* The HTTP transport is a deterministic function of the requests sent so far and the
  current request (`Env.server`); the requests handed to the transport are appended to a
  log, which is threaded through every operation.
* Byte slices are `List Nat` (each element below 256).
* Go standard-library functions the package calls are either modelled directly
  (`strconv.ParseInt`, `strconv.FormatInt`, `strings.TrimSpace`, the regular expression of
  `commaSplitTrim`, `base64.StdEncoding`, `textproto.CanonicalMIMEHeaderKey`,
  `bytes.Reader`) or taken as fields of `Env` (`net/url`, `strings.ToLower`).
-/

namespace Tusc

/-! ## errors.go -/

/-- The sentinel errors of `errors.go`, plus the errors the package builds on the fly:
`other` for `errors.New` / `fmt.Errorf` values and standard-library errors, `transport`
for an error returned by the HTTP client, `panic` for a Go runtime panic. -/
inductive Err where
  | ErrChuckSize
  | ErrNilUpload
  | ErrLargeUpload
  | ErrNilStore
  | ErrFingerprintUnset
  | ErrVersionMismatch
  | ErrOffsetMismatch
  | ErrUploadNotFound
  | ErrBadMethodOverride
  | ErrExtensionNotAvailable
  | ErrExtensionNotSupported
  | ErrChecksumSetup
  | other (msg : String)
  | transport (msg : String)
  | panic (msg : String)
  deriving DecidableEq, Repr

/-- The message of each sentinel, as given to `errors.New` in `errors.go`. -/
def Err.message : Err → String
  | .ErrChuckSize => "chunk size must be greater than zero"
  | .ErrNilUpload => "upload cannot be nil"
  | .ErrLargeUpload => "upload is too large"
  | .ErrNilStore => "store cannot be nil"
  | .ErrFingerprintUnset => "fingerprint unset"
  | .ErrVersionMismatch => "protocol version mismatch"
  | .ErrOffsetMismatch => "upload offset mismatch"
  | .ErrUploadNotFound => "upload not found"
  | .ErrBadMethodOverride => "only 'patch' and 'delete' method overriding supported"
  | .ErrExtensionNotAvailable => "extension not available (server)"
  | .ErrExtensionNotSupported => "extension not supported (client)"
  | .ErrChecksumSetup => "ChecksumAlgName is required when ChecksumAlgFunc is set"
  | .other msg => msg
  | .transport msg => msg
  | .panic msg => msg

/-! ## 64-bit integers and `strconv` -/

/-- Two's-complement wrap-around of an integer into the `int64` range. -/
def wrapInt64 (x : Int) : Int := (x + 2 ^ 63) % 2 ^ 64 - 2 ^ 63

/-- Largest `int64`. -/
def maxInt64 : Int := 2 ^ 63 - 1

/-- Smallest `int64`. -/
def minInt64 : Int := -(2 ^ 63)

/-- Value of the decimal digit string `cs` appended to the digits already read (`acc`);
`none` when a character is not a decimal digit. -/
def parseDigits : List Char → Nat → Option Nat
  | [], acc => some acc
  | c :: cs, acc =>
    if 48 ≤ c.toNat ∧ c.toNat ≤ 57 then parseDigits cs (acc * 10 + (c.toNat - 48)) else none

/-- The optional sign in front of the digits: whether it is a minus, and what follows. -/
def splitSign : List Char → Bool × List Char
  | '+' :: ds => (false, ds)
  | '-' :: ds => (true, ds)
  | ds => (false, ds)

/-- Go `strconv.ParseInt(s, 10, 64)`: the value and the error. An optional sign is followed
by at least one decimal digit; a syntax error gives value 0, a range error gives the
nearest `int64`. -/
def ParseInt (s : String) : Int × Option Err :=
  let invalidErr : Int × Option Err :=
    (0, some (.other ("strconv.ParseInt: parsing " ++ s.quote ++ ": invalid syntax")))
  let rangeErr : Option Err :=
    some (.other ("strconv.ParseInt: parsing " ++ s.quote ++ ": value out of range"))
  match (splitSign s.data).2 with
  | [] => invalidErr
  | d :: ds =>
    match parseDigits (d :: ds) 0 with
    | none => invalidErr
    | some n =>
      if (splitSign s.data).1 then
        if (n : Int) ≤ 2 ^ 63 then (-(n : Int), none) else (minInt64, rangeErr)
      else
        if (n : Int) < 2 ^ 63 then ((n : Int), none) else (maxInt64, rangeErr)

/-- Decimal digits of a natural number, most significant first (`fuel` bounds the number
of digits). -/
def natDigits : Nat → Nat → List Char
  | 0, _ => []
  | fuel + 1, n =>
    if n < 10 then [Char.ofNat (48 + n)]
    else natDigits fuel (n / 10) ++ [Char.ofNat (48 + n % 10)]

/-- Go `strconv.FormatInt(i, 10)`. -/
def FormatInt (i : Int) : String :=
  if i < 0 then String.mk ('-' :: natDigits (i.natAbs + 1) i.natAbs)
  else String.mk (natDigits (i.natAbs + 1) i.natAbs)

/-! ## HTTP headers, requests and responses -/

/-- Go `http.Header`: a map from header name to the list of its values, kept as an
association list with at most one entry per key. -/
abbrev Header := List (String × List String)

/-- Assignment `m[k] = v` on a map kept as an association list. -/
def mapSet {β : Type} (m : List (String × β)) (k : String) (v : β) : List (String × β) :=
  (k, v) :: m.filter (fun p => p.1 != k)

/-- Token bytes of a header field name (`validHeaderFieldByte` in `net/textproto`). -/
def validHeaderFieldByte (c : Char) : Bool :=
  c.isAlphanum || "!#$%&'*+-.^_`|~".data.contains c

/-- Go `textproto.CanonicalMIMEHeaderKey`: the first letter and every letter after a hyphen
in upper case, the others in lower case; a key holding a byte that is not a token byte is
returned unchanged. -/
def canonicalMIMEHeaderKey (s : String) : String :=
  if s.data.all validHeaderFieldByte then
    let step : List Char × Bool → Char → List Char × Bool := fun st c =>
      let c1 := if st.2 then c.toUpper else c.toLower
      (st.1 ++ [c1], c1 == '-')
    String.mk (s.data.foldl step ([], true)).1
  else s

/-- Go `Header.Set`: the canonical key is bound to the single value. -/
def Header.set (h : Header) (k v : String) : Header :=
  mapSet h (canonicalMIMEHeaderKey k) [v]

/-- Go `Header.Get`: the first value bound to the canonical key, or the empty string. -/
def Header.get (h : Header) (k : String) : String :=
  match h.lookup (canonicalMIMEHeaderKey k) with
  | some (v :: _) => v
  | _ => ""

/-- An outgoing request: method, URL, header and body bytes. -/
structure Request where
  method : String
  url : String
  header : Header
  body : List Nat
  deriving DecidableEq, Repr

/-- A response as the package reads it: status code, header and body text. -/
structure Response where
  statusCode : Nat
  header : Header
  body : String
  deriving DecidableEq, Repr

/-- What the HTTP client gives back for one request: a response, or a transport error
with its message. -/
abbrev Reply := Except String Response

/-- The parts of the world outside the package: the transport (its answer to a request,
given the requests already sent), and the standard-library functions that are not modelled
here. `urlParses s` says that `net/url.Parse(s)` succeeds (it is also the check made by
`http.NewRequest`); `resolveReference base loc` is the string form of
`Parse(base).ResolveReference(Parse(loc))`; `toLower` is `strings.ToLower`. -/
structure Env where
  server : List Request → Request → Reply
  urlParses : String → Bool
  resolveReference : String → String → String
  toLower : String → String

/-- Go `http.NewRequest(method, url, body)` with an empty header; fails when the URL does
not parse. -/
def NewRequest (env : Env) (method url : String) (body : List Nat) : Except Err Request :=
  if env.urlParses url then .ok { method := method, url := url, header := [], body := body }
  else .error (.other ("parse " ++ url.quote ++ ": invalid URL"))

/-! ## store.go -/

/-- The in-memory store of `store.go`: fingerprint to URL. -/
abbrev MemoryStore := List (String × String)

/-- Go `NewMemoryStore`. -/
def NewMemoryStore : MemoryStore := []

/-- Go `MemoryStore.Get`: the stored URL (empty when absent) and whether it is present. -/
def MemoryStore.Get (s : MemoryStore) (fingerprint : String) : String × Bool :=
  match s.lookup fingerprint with
  | some url => (url, true)
  | none => ("", false)

/-- Go `MemoryStore.Set`. -/
def MemoryStore.Set (s : MemoryStore) (fingerprint url : String) : MemoryStore :=
  mapSet s fingerprint url

/-- Go `MemoryStore.Delete`. -/
def MemoryStore.Delete (s : MemoryStore) (fingerprint : String) : MemoryStore :=
  s.filter (fun p => p.1 != fingerprint)

/-- Go `MemoryStore.Close`: every entry is deleted. -/
def MemoryStore.Close (_s : MemoryStore) : MemoryStore := []

/-! ## config.go -/

/-- A `hash.Hash` value: the bytes written so far and the digest function. `Write` adds
data to the running hash and never fails; `Sum(nil)` is the digest of everything written
and leaves the state as it is (the contract of Go's `hash.Hash`). -/
structure Hash where
  written : List Nat
  digest : List Nat → List Nat

/-- Go `hash.Hash.Write`. -/
def Hash.Write (h : Hash) (p : List Nat) : Hash := { h with written := h.written ++ p }

/-- Go `hash.Hash.Sum(nil)`. -/
def Hash.Sum (h : Hash) : List Nat := h.digest h.written

/-- A configured `*http.Client`; what it answers is `Env.server`. -/
structure HttpClient where
  deriving DecidableEq, Repr

/-- Go `Config`. -/
structure Config where
  ChunkSizeBytes : Int
  HTTPMethodOverrides : Option (List (String × String))
  Header : Option Header
  HttpClient : Option HttpClient
  Store : Option MemoryStore
  ChecksumAlg : String
  ChecksumFunc : Option Hash

/-- Go `DefaultConfig`. -/
def DefaultConfig : Config :=
  { ChunkSizeBytes := 5 * 1024 * 1024
    HTTPMethodOverrides := none
    Header := some []
    Store := some NewMemoryStore
    HttpClient := some {}
    ChecksumAlg := ""
    ChecksumFunc := none }

/-- Go `Config.ValidateAndSetDefaults`: the error, and the configuration afterwards. -/
def Config.ValidateAndSetDefaults (c : Config) : Option Err × Config :=
  if c.ChunkSizeBytes ≤ 1 then (some .ErrChuckSize, c)
  else if (match c.HTTPMethodOverrides with
      | some m => m.any (fun kv => kv.1 != "PATCH" && kv.1 != "DELETE")
      | none => false) then (some .ErrBadMethodOverride, c)
  else if c.Store.isNone then (some .ErrNilStore, c)
  else if c.ChecksumFunc.isNone != (c.ChecksumAlg == "") then (some .ErrChecksumSetup, c)
  else
    let c1 : Config := if c.Header.isNone then { c with Header := some [] } else c
    let c2 : Config := if c1.HttpClient.isNone then { c1 with HttpClient := some {} } else c1
    (none, c2)

/-! ## upload.go -/

/-- The seekable byte source of an upload, with the behaviour of Go's `bytes.Reader`:
the bytes and the current position. -/
structure Stream where
  data : List Nat
  pos : Int
  deriving DecidableEq, Repr

/-- Go `Seek(offset, io.SeekStart)`: a negative position is an error. -/
def Stream.Seek (s : Stream) (offset : Int) : Option Err × Stream :=
  if offset < 0 then (some (.other "bytes.Reader.Seek: negative position"), s)
  else (none, { s with pos := offset })

/-- Go `Read(buf)` with `len(buf) = n`: at or past the end the error is `io.EOF`, else the
bytes from the position on, at most `n` of them, are copied and the position advances. -/
def Stream.Read (s : Stream) (n : Nat) : List Nat × Option Err × Stream :=
  if (s.data.length : Int) ≤ s.pos then ([], some (.other "EOF"), s)
  else
    let got := (s.data.drop s.pos.toNat).take n
    (got, none, { s with pos := s.pos + got.length })

/-- Go `Metadata`: a map from key to value; the list order stands for the order in which
a `range` over the map visits the entries. -/
abbrev Metadata := List (String × String)

/-- Go `Upload`, the upload descriptor. -/
structure Upload where
  stream : Stream
  size : Int
  offset : Int
  Fingerprint : String
  Metadata : Metadata
  deriving DecidableEq, Repr

/-- Go `Upload.setOffset`. -/
def Upload.setOffset (u : Upload) (offset : Int) : Upload := { u with offset := offset }

/-- Go `Upload.Offset`. -/
def Upload.Offset (u : Upload) : Int := u.offset

/-- Go `Upload.Size`. -/
def Upload.Size (u : Upload) : Int := u.size

/-- Go `Upload.Progress`: `(u.offset * 100) / u.size` in `int64` arithmetic (the product
wraps, the quotient truncates toward zero), and 100 for size 0. -/
def Upload.Progress (u : Upload) : Int :=
  if u.size = 0 then 100
  else wrapInt64 ((wrapInt64 (u.offset * 100)).tdiv u.size)

/-- Standard base64 alphabet. -/
def b64Alphabet : List Char :=
  "ABCDEFGHIJKLMNOPQRSTUVWXYZabcdefghijklmnopqrstuvwxyz0123456789+/".data

/-- The base64 character of a 6-bit value. -/
def b64Char (n : Nat) : Char := b64Alphabet.getD n 'A'

/-- Go `base64.StdEncoding.EncodeToString`: three bytes give four characters, and a last
group of one or two bytes is padded with `=`. -/
def b64Encode : List Nat → List Char
  | [] => []
  | [a] => [b64Char (a / 4), b64Char (a % 4 * 16), '=', '=']
  | [a, b] => [b64Char (a / 4), b64Char (a % 4 * 16 + b / 16), b64Char (b % 16 * 4), '=']
  | a :: b :: c :: rest =>
    b64Char (a / 4) :: b64Char (a % 4 * 16 + b / 16) :: b64Char (b % 16 * 4 + c / 64)
      :: b64Char (c % 64) :: b64Encode rest

/-- The bytes of a string (`[]byte(s)`, UTF-8). -/
def stringBytes (s : String) : List Nat :=
  (s.data.flatMap String.utf8EncodeChar).map UInt8.toNat

/-- Go `b64encode` of `upload.go`. -/
def b64encode (s : String) : String := String.mk (b64Encode (stringBytes s))

/-- Go `Upload.EncodedMetadata`: one `key base64(value)` item per entry, joined by commas. -/
def Upload.EncodedMetadata (u : Upload) : String :=
  ",".intercalate (u.Metadata.map (fun kv => kv.1 ++ " " ++ b64encode kv.2))

/-! ## client.go -/

/-- Go constant `ProtocolVersion`. -/
def ProtocolVersion : String := "1.0.0"

/-- Go struct `Option` of `client.go` (the server-reported settings); renamed because
`Option` is taken. -/
structure TusOption where
  concatenation : Bool := false
  checksum : Bool := false
  checksumTrailer : Bool := false
  creation : Bool := false
  creationDeferLength : Bool := false
  creationWithUpload : Bool := false
  expiration : Bool := false
  maxSizeBytes : Int := 0
  deriving DecidableEq, Repr

/-- Go `Client`; the field `Option` of the source is `Opt` here. -/
structure Client where
  Version : String
  Config : Config
  BaseUrl : String
  Opt : Option TusOption

/-- The request that `Client.Do` hands to the transport: the custom headers are assigned
(`_req.Header[k] = v`), the protocol version header is set, and when the override map has
an entry for the method, the override header names the original method and the method is
replaced. -/
def Client.outgoing (c : Client) (req : Request) : Request :=
  let h1 : Header := (c.Config.Header.getD []).foldl (fun h kv => mapSet h kv.1 kv.2) req.header
  let h2 : Header := Header.set h1 "Tus-Resumable" ProtocolVersion
  match c.Config.HTTPMethodOverrides with
  | none => { req with header := h2 }
  | some m =>
    match m.lookup req.method with
    | some method =>
      { req with header := Header.set h2 "X-HTTP-Method-Override" req.method, method := method }
    | none => { req with header := h2 }

/-- Go `Client.Do`: the request is prepared (`Client.outgoing`) and goes to the transport.
Returns the reply and the log with the request sent appended. -/
def Client.Do (env : Env) (c : Client) (log : List Request) (req : Request) :
    Reply × List Request :=
  (env.server log (c.outgoing req), log ++ [c.outgoing req])

/-- Class `\s` of Go regular expressions: tab, newline, form feed, carriage return, space. -/
def isReSpace (c : Char) : Bool :=
  c == '\t' || c == '\n' || c == Char.ofNat 12 || c == '\r' || c == ' '

/-- Go `unicode.IsSpace`. -/
def isSpace (c : Char) : Bool :=
  let n := c.toNat
  (9 ≤ n && n ≤ 13) || n == 32 || n == 0x85 || n == 0xA0 || n == 0x1680
    || (0x2000 ≤ n && n ≤ 0x200a) || n == 0x2028 || n == 0x2029 || n == 0x202f
    || n == 0x205f || n == 0x3000

/-- Go `strings.TrimSpace` on the characters of a string. -/
def TrimSpace (cs : List Char) : List Char :=
  ((cs.dropWhile isSpace).reverse.dropWhile isSpace).reverse

/-- A match of the regular expression `\s*,+\s*` at the head of `cs` (each of the three
parts taken greedily): what follows the match, or `none` when there is no match here. -/
def matchSep (cs : List Char) : Option (List Char) :=
  match cs.dropWhile isReSpace with
  | ',' :: rest => some ((rest.dropWhile (fun c => c == ',')).dropWhile isReSpace)
  | _ => none

/-- Go `re.Split(s, -1)` for `\s*,+\s*`: the text is scanned from the left for the next
match; `cur` holds, reversed, the characters of the current part. `fuel` bounds the number
of steps (one more than the length suffices). -/
def reSplitAux : Nat → List Char → List Char → List (List Char)
  | 0, _, cur => [cur.reverse]
  | _ + 1, [], cur => [cur.reverse]
  | fuel + 1, c :: cs, cur =>
    match matchSep (c :: cs) with
    | some rest => cur.reverse :: reSplitAux fuel rest []
    | none => reSplitAux fuel cs (c :: cur)

/-- Go `commaSplitTrim`: split on the regular expression, trim every part, keep the
non-empty ones. -/
def commaSplitTrim (s : String) : List String :=
  (((reSplitAux (s.data.length + 1) s.data []).map TrimSpace).filter
    (fun t => !t.isEmpty)).map String.mk

/-- The loop of `Client.options` over the extensions: the error, and the settings as the
loop leaves them. `alg` is the configured checksum algorithm, `resHeader` the header of the
discovery response. -/
def optionsExtensions (env : Env) (alg : String) (resHeader : Header) :
    List String → TusOption → Option Err × TusOption
  | [], o => (none, o)
  | extension :: rest, o =>
    let l := env.toLower extension
    if l = "concatenation" then
      optionsExtensions env alg resHeader rest { o with concatenation := true }
    else if l = "creation" then
      optionsExtensions env alg resHeader rest { o with creation := true }
    else if l = "creation-defer-length" then
      optionsExtensions env alg resHeader rest { o with creationDeferLength := true }
    else if l = "creation-with-upload" then
      optionsExtensions env alg resHeader rest { o with creationWithUpload := true }
    else if l = "expiration" then
      optionsExtensions env alg resHeader rest { o with expiration := true }
    else if l = "checksum" then
      if alg = "" then optionsExtensions env alg resHeader rest o
      else if !(commaSplitTrim (resHeader.get "Tus-Checksum-Algorithm")).contains alg then
        (some (.other ("ChecksumAlgName " ++ alg ++ " not supported")), o)
      else optionsExtensions env alg resHeader rest { o with checksum := true }
    else if l = "checksum-trailer" then
      optionsExtensions env alg resHeader rest { o with checksumTrailer := true }
    else if l = "termination" then
      optionsExtensions env alg resHeader rest o
    else (some (.other ("unknown extension: " ++ extension)), o)

/-- Go `Client.options`: the discovery request. Returns the error, the client afterwards
and the log. -/
def Client.options (env : Env) (c : Client) (log : List Request) :
    Option Err × Client × List Request :=
  match NewRequest env "OPTIONS" c.BaseUrl [] with
  | .error e => (some e, c, log)
  | .ok req =>
    match c.Do env log req with
    | (.error msg, log1) => (some (.transport msg), c, log1)
    | (.ok res, log1) =>
      if res.statusCode ≠ 204 ∧ res.statusCode ≠ 200 then (none, c, log1)
      else
        let tusVersions := res.header.get "Tus-Versions"
        if tusVersions ≠ "" ∧ !(commaSplitTrim tusVersions).contains ProtocolVersion then
          (some (.other ("unsupported tus version: '" ++ ProtocolVersion
            ++ "', server supports: " ++ tusVersions)), c, log1)
        else
          match optionsExtensions env c.Config.ChecksumAlg res.header
              (commaSplitTrim (res.header.get "Tus-Extension")) {} with
          | (some e, o) => (some e, { c with Opt := some o }, log1)
          | (none, o) =>
            let maxSizeBytes := res.header.get "Tus-Max-Size"
            if maxSizeBytes ≠ "" then
              let r := ParseInt maxSizeBytes
              (r.2, { c with Opt := some { o with maxSizeBytes := r.1 } }, log1)
            else (none, { c with Opt := some o }, log1)

/-- Go `NewClient`; a `nil` configuration is replaced by the default one, any other is
validated. -/
def NewClient (env : Env) (baseUrl : String) (config : Option Config) (log : List Request) :
    Except Err Client × List Request :=
  if baseUrl = "" then (.error (.other "BaseUrl cannot be empty"), log)
  else
    let checked : Except Err Config :=
      match config with
      | none => .ok DefaultConfig
      | some cfg =>
        match cfg.ValidateAndSetDefaults with
        | (some e, _) => .error e
        | (none, cfg1) => .ok cfg1
    match checked with
    | .error e => (.error e, log)
    | .ok cfg =>
      let client : Client :=
        { Config := cfg, BaseUrl := baseUrl, Version := ProtocolVersion, Opt := none }
      match client.options env log with
      | (some e, _, log1) => (.error e, log1)
      | (none, c1, log1) => (.ok c1, log1)

/-- Go `newClientError`: status and body text. -/
def newClientError (res : Response) : Err :=
  .other (toString res.statusCode ++ ": " ++ res.body)

/-- Go `Client.resolveLocationURL`: the location resolved against the base URL, as a
string (the error text of `net/url` is left out of the second message). -/
def Client.resolveLocationURL (env : Env) (c : Client) (location : String) :
    Except Err String :=
  if !env.urlParses c.BaseUrl then .error (.other ("invalid Base URL '" ++ c.BaseUrl ++ "'"))
  else if !env.urlParses location then
    .error (.other ("invalid Location header value for Creation '" ++ location ++ "'"))
  else .ok (env.resolveReference c.BaseUrl location)

/-- Go `Client.uploadChunk`: the chunk request. Returns the offset and the error, and the
log. On a 204 answer whose offset does not parse the source returns the outer `err`, which
is `nil` there, with offset 0. -/
def Client.uploadChunk (env : Env) (c : Client) (log : List Request) (url : String)
    (buf : List Nat) (checksum : String) (size offset : Int) :
    (Int × Option Err) × List Request :=
  match NewRequest env "PATCH" url buf with
  | .error e => ((-1, some e), log)
  | .ok req =>
    let h1 := Header.set req.header "Content-Type" "application/offset+octet-stream"
    let h2 := Header.set h1 "Content-Length" (FormatInt size)
    let h3 := Header.set h2 "Upload-Offset" (FormatInt offset)
    let h4 :=
      match c.Opt with
      | some o => if o.checksum then Header.set h3 "Tus-Checksum-Algorithm" checksum else h3
      | none => h3
    match c.Do env log { req with header := h4 } with
    | (.error msg, log1) => ((0, some (.transport msg)), log1)
    | (.ok res, log1) =>
      if res.statusCode = 204 then
        match ParseInt (res.header.get "Upload-Offset") with
        | (newOffset, none) => ((newOffset, none), log1)
        | (_, some _) => ((0, none), log1)
      else if res.statusCode = 409 then ((0, some .ErrOffsetMismatch), log1)
      else if res.statusCode = 412 then ((0, some .ErrVersionMismatch), log1)
      else if res.statusCode = 413 then ((0, some .ErrLargeUpload), log1)
      else ((0, some (newClientError res)), log1)

/-- Go `Client.getUploadOffset`: the probe of an upload URL. -/
def Client.getUploadOffset (env : Env) (c : Client) (log : List Request) (url : String) :
    (Int × Option Err) × List Request :=
  match NewRequest env "HEAD" url [] with
  | .error e => ((0, some e), log)
  | .ok req =>
    match c.Do env log req with
    | (.error msg, log1) => ((0, some (.transport msg)), log1)
    | (.ok res, log1) =>
      if res.statusCode = 200 then
        match ParseInt (res.header.get "Upload-Offset") with
        | (i, none) => ((i, none), log1)
        | (_, some e) => ((0, some e), log1)
      else if res.statusCode = 403 ∨ res.statusCode = 404 ∨ res.statusCode = 410 then
        ((0, some .ErrUploadNotFound), log1)
      else if res.statusCode = 412 then ((0, some .ErrVersionMismatch), log1)
      else ((0, some (newClientError res)), log1)

/-! ## manager.go -/

/-- Go `UploadMgr`, the transfer engine. The channels are not modelled; `notified` counts
the values sent on `notifyChan`. -/
structure UploadMgr where
  client : Client
  url : String
  upload : Upload
  offset : Int
  aborted : Bool
  notified : Nat

/-- Go `NewUploadMgr`. -/
def NewUploadMgr (client : Client) (url : String) (upload : Upload) (offset : Int) :
    UploadMgr :=
  { client := client, url := url, upload := upload, offset := offset, aborted := false,
    notified := 0 }

/-- Go `UploadMgr.Abort`. -/
def UploadMgr.Abort (um : UploadMgr) : UploadMgr := { um with aborted := true }

/-- Go `UploadMgr.Checksum`: nothing without a configured digest function and algorithm
name; otherwise the bytes are written to the configured hash, whose state is kept, and the
result is the algorithm name, a space and the base64 form of `Sum(nil)`. `Write` of a
`hash.Hash` never fails, so the error is always `nil`. -/
def UploadMgr.Checksum (um : UploadMgr) (bytes : List Nat) :
    (String × Option Err) × UploadMgr :=
  match um.client.Config.ChecksumFunc with
  | none => (("", none), um)
  | some h =>
    if um.client.Config.ChecksumAlg = "" then (("", none), um)
    else
      let h1 := h.Write bytes
      let encoded := String.mk (b64Encode h1.Sum)
      ((um.client.Config.ChecksumAlg ++ " " ++ encoded, none),
        { um with client := { um.client with
            Config := { um.client.Config with ChecksumFunc := some h1 } } })

/-- Go `UploadMgr.UploadChunk`: seek to the engine offset, read up to the chunk size,
compute the checksum of the bytes read (its error is overwritten), send the chunk; on
success adopt the returned offset in the engine and the descriptor and notify. Returns the
error, the engine afterwards and the log. -/
def UploadMgr.UploadChunk (env : Env) (um : UploadMgr) (log : List Request) :
    Option Err × UploadMgr × List Request :=
  match um.upload.stream.Seek um.offset with
  | (some e, _) => (some e, um, log)
  | (none, s1) =>
    let um1 : UploadMgr := { um with upload := { um.upload with stream := s1 } }
    if um.client.Config.ChunkSizeBytes < 0 then
      (some (.panic "runtime error: makeslice: len out of range"), um1, log)
    else
      match s1.Read um.client.Config.ChunkSizeBytes.toNat with
      | (_, some e, s2) =>
        (some e, { um1 with upload := { um1.upload with stream := s2 } }, log)
      | (got, none, s2) =>
        let um2 : UploadMgr := { um1 with upload := { um1.upload with stream := s2 } }
        let (ck, um3) := um2.Checksum got
        match um3.client.uploadChunk env log um3.url got ck.1 got.length um3.offset with
        | ((_, some e), log1) => (some e, um3, log1)
        | ((newOffset, none), log1) =>
          (none, { um3 with offset := newOffset, upload := um3.upload.setOffset newOffset,
                            notified := um3.notified + 1 }, log1)

/-- The loop of `UploadMgr.Upload`: while the offset is below the size and the engine is
not aborted, upload a chunk and stop at the first error. `none` when `fuel` iterations
were not enough. -/
def UploadMgr.uploadLoop (env : Env) :
    Nat → UploadMgr → List Request → Option (Option Err × UploadMgr × List Request)
  | fuel, um, log =>
    if um.offset < um.upload.size ∧ um.aborted = false then
      match fuel with
      | 0 => none
      | fuel1 + 1 =>
        match um.UploadChunk env log with
        | (some e, um1, log1) => some (some e, um1, log1)
        | (none, um1, log1) => UploadMgr.uploadLoop env fuel1 um1 log1
    else some (none, um, log)

/-- Go `UploadMgr.Upload`: an upload whose offset already equals the size sets the
descriptor offset, notifies once and returns; otherwise the chunk loop runs. -/
def UploadMgr.Upload (env : Env) (fuel : Nat) (um : UploadMgr) (log : List Request) :
    Option (Option Err × UploadMgr × List Request) :=
  if um.upload.size = um.offset then
    some (none, { um with upload := um.upload.setOffset um.offset,
                          notified := um.notified + 1 }, log)
  else um.uploadLoop env fuel log

/-- The engine states seen during `Upload`: the state on entry, then the state after every
call of `UploadChunk` (or after the completion branch), in order. -/
def UploadMgr.loopTrace (env : Env) :
    Nat → UploadMgr → List Request → List UploadMgr
  | fuel, um, log =>
    if um.offset < um.upload.size ∧ um.aborted = false then
      match fuel with
      | 0 => [um]
      | fuel1 + 1 =>
        match um.UploadChunk env log with
        | (some _, um1, _) => [um, um1]
        | (none, um1, log1) => um :: UploadMgr.loopTrace env fuel1 um1 log1
    else [um]

/-- The engine states seen during `Upload`, the completion branch included. -/
def UploadMgr.UploadTrace (env : Env) (fuel : Nat) (um : UploadMgr) (log : List Request) :
    List UploadMgr :=
  if um.upload.size = um.offset then
    [um, { um with upload := um.upload.setOffset um.offset, notified := um.notified + 1 }]
  else um.loopTrace env fuel log

/-! ## client.go: creating and resuming uploads -/

/-- Go `Client.CreateUpload`. Returns the engine or the error, the client afterwards (its
store may have a new entry) and the log. -/
def Client.CreateUpload (env : Env) (c : Client) (log : List Request) (upload : Option Upload) :
    Except Err UploadMgr × Client × List Request :=
  if (match c.Opt with
      | some o => !o.creation
      | none => false) then (.error .ErrExtensionNotAvailable, c, log)
  else
    match upload with
    | none => (.error .ErrNilUpload, c, log)
    | some u =>
      match NewRequest env "POST" c.BaseUrl [] with
      | .error e => (.error e, c, log)
      | .ok req =>
        let h1 := Header.set req.header "Content-Length" "0"
        let h2 := Header.set h1 "Upload-Length" (FormatInt u.size)
        let h3 := Header.set h2 "Upload-Metadata" u.EncodedMetadata
        match c.Do env log { req with header := h3 } with
        | (.error msg, log1) => (.error (.transport msg), c, log1)
        | (.ok res, log1) =>
          if res.statusCode = 201 then
            match c.resolveLocationURL env (res.header.get "Location") with
            | .error e => (.error e, c, log1)
            | .ok url =>
              match c.Config.Store with
              | none =>
                (.error (.panic "runtime error: invalid memory address or nil pointer dereference"),
                  c, log1)
              | some store =>
                let c1 : Client :=
                  { c with Config := { c.Config with Store := some (store.Set u.Fingerprint url) } }
                (.ok (NewUploadMgr c1 url u 0), c1, log1)
          else if res.statusCode = 412 then (.error .ErrVersionMismatch, c, log1)
          else if res.statusCode = 413 then (.error .ErrLargeUpload, c, log1)
          else (.error (newClientError res), c, log1)

/-- Go `Client.ResumeUpload`. Returns the engine or the error, and the log. -/
def Client.ResumeUpload (env : Env) (c : Client) (log : List Request) (upload : Option Upload) :
    Except Err UploadMgr × List Request :=
  match upload with
  | none => (.error .ErrNilUpload, log)
  | some u =>
    if u.Fingerprint.length = 0 then (.error .ErrFingerprintUnset, log)
    else
      match c.Config.Store with
      | none =>
        (.error (.panic "runtime error: invalid memory address or nil pointer dereference"), log)
      | some store =>
        match store.Get u.Fingerprint with
        | (_, false) => (.error .ErrUploadNotFound, log)
        | (url, true) =>
          match c.getUploadOffset env log url with
          | ((_, some e), log1) => (.error e, log1)
          | ((offset, none), log1) => (.ok (NewUploadMgr c url u offset), log1)

/-- Go `Client.CreateOrResumeUpload`: resume first; an upload that is not found is
created; any other resume error is returned. -/
def Client.CreateOrResumeUpload (env : Env) (c : Client) (log : List Request)
    (upload : Option Upload) : Except Err UploadMgr × Client × List Request :=
  match upload with
  | none => (.error .ErrNilUpload, c, log)
  | some u =>
    match c.ResumeUpload env log (some u) with
    | (.ok uploadMgr, log1) => (.ok uploadMgr, c, log1)
    | (.error e, log1) =>
      if e = .ErrUploadNotFound then c.CreateUpload env log1 (some u)
      else (.error e, c, log1)

/-! ## Definitions used to state the theorems -/

/-- What `Client.uploadChunk` returns for a reply of the transport (the `switch` on the
status code): the offset and the error. -/
def chunkOutcome (r : Reply) : Int × Option Err :=
  match r with
  | .error msg => (0, some (.transport msg))
  | .ok res =>
    if res.statusCode = 204 then
      match ParseInt (res.header.get "Upload-Offset") with
      | (n, none) => (n, none)
      | (_, some _) => (0, none)
    else if res.statusCode = 409 then (0, some .ErrOffsetMismatch)
    else if res.statusCode = 412 then (0, some .ErrVersionMismatch)
    else if res.statusCode = 413 then (0, some .ErrLargeUpload)
    else (0, some (newClientError res))

/-- What `Client.getUploadOffset` returns for a reply of the transport. -/
def probeOutcome (r : Reply) : Int × Option Err :=
  match r with
  | .error msg => (0, some (.transport msg))
  | .ok res =>
    if res.statusCode = 200 then
      match ParseInt (res.header.get "Upload-Offset") with
      | (i, none) => (i, none)
      | (_, some e) => (0, some e)
    else if res.statusCode = 403 ∨ res.statusCode = 404 ∨ res.statusCode = 410 then
      (0, some .ErrUploadNotFound)
    else if res.statusCode = 412 then (0, some .ErrVersionMismatch)
    else (0, some (newClientError res))

/-- The probe request of `getUploadOffset` as it reaches the transport. -/
def Client.probeRequest (c : Client) (url : String) : Request :=
  c.outgoing { method := "HEAD", url := url, header := [], body := [] }

/-- The creation request of `CreateUpload` as it reaches the transport. -/
def Client.createRequest (c : Client) (u : Upload) : Request :=
  c.outgoing
    { method := "POST", url := c.BaseUrl,
      header := Header.set (Header.set (Header.set [] "Content-Length" "0")
        "Upload-Length" (FormatInt u.size)) "Upload-Metadata" u.EncodedMetadata,
      body := [] }

/-- The discovery request of `options` as it reaches the transport. -/
def Client.optionsRequest (c : Client) : Request :=
  c.outgoing { method := "OPTIONS", url := c.BaseUrl, header := [], body := [] }

/-- The bytes `UploadChunk` reads for the next chunk. -/
def UploadMgr.chunkBytes (um : UploadMgr) : List Nat :=
  (um.upload.stream.data.drop um.offset.toNat).take um.client.Config.ChunkSizeBytes.toNat

/-- What a chunk attempt leaves as it is. -/
def UploadMgr.sameSetting (a b : UploadMgr) : Prop :=
  b.url = a.url ∧ b.aborted = a.aborted ∧ b.upload.size = a.upload.size ∧
  b.upload.stream.data = a.upload.stream.data ∧
  b.upload.Fingerprint = a.upload.Fingerprint ∧ b.upload.Metadata = a.upload.Metadata ∧
  b.client.Opt = a.client.Opt ∧ b.client.BaseUrl = a.client.BaseUrl ∧
  b.client.Config.ChunkSizeBytes = a.client.Config.ChunkSizeBytes ∧
  b.client.Config.ChecksumAlg = a.client.Config.ChecksumAlg ∧
  b.client.Config.Header = a.client.Config.Header ∧
  b.client.Config.HTTPMethodOverrides = a.client.Config.HTTPMethodOverrides ∧
  b.client.Config.Store = a.client.Config.Store

/-- Sum of the body lengths of the requests of a log: the bytes the server received. -/
def received (log : List Request) : Int := ((log.map (fun r => r.body.length)).sum : Nat)

/-- A transport that answers the requests with a fixed sequence of replies, one per
request in order, and with a transport error once the sequence is used up. -/
def seqServer (rs : List Reply) : List Request → Request → Reply :=
  fun log _ => rs.getD log.length (.error "no reply")

/-- The replies of a sequence report offsets that never go back and never pass `size`:
every 204 reply, up to the first reply that ends the run, carries an offset that parses
and lies between the previous offset (`lo` at the start) and `size`. -/
def repliesWithin (size : Int) : Int → List Reply → Bool
  | _, [] => true
  | _, .error _ :: _ => true
  | lo, .ok res :: rest =>
    if res.statusCode = 204 then
      match ParseInt (res.header.get "Upload-Offset") with
      | (n, none) => decide (lo ≤ n) && decide (n ≤ size) && repliesWithin size n rest
      | (_, some _) => false
    else true

/-- The checksum value the protocol expects with a chunk: the algorithm name, a space and
the base64 form of the digest of the bytes. -/
def checksumOf (alg : String) (digest : List Nat → List Nat) (bytes : List Nat) : String :=
  alg ++ " " ++ String.mk (b64Encode (digest bytes))

/-- The extension names `Client.options` recognises. -/
def knownExtensions : List String :=
  ["creation", "creation-defer-length", "creation-with-upload", "concatenation", "expiration",
    "checksum", "checksum-trailer", "termination"]

/-- The effect of one recognised extension name on the settings when the client has no
checksum algorithm configured. -/
def setFlag (l : String) (o : TusOption) : TusOption :=
  if l = "concatenation" then { o with concatenation := true }
  else if l = "creation" then { o with creation := true }
  else if l = "creation-defer-length" then { o with creationDeferLength := true }
  else if l = "creation-with-upload" then { o with creationWithUpload := true }
  else if l = "expiration" then { o with expiration := true }
  else if l = "checksum-trailer" then { o with checksumTrailer := true }
  else o

/-- Splitting at every comma; `cur` holds, reversed, the characters of the current piece. -/
def splitCommaAux : List Char → List Char → List (List Char)
  | [], cur => [cur.reverse]
  | c :: cs, cur =>
    if c = ',' then cur.reverse :: splitCommaAux cs [] else splitCommaAux cs (c :: cur)

/-- The tokens of a comma-separated list as the specification words them: the pieces
between commas, each trimmed of surrounding white space, the empty ones left out. -/
def specTokens (s : String) : List String :=
  (((splitCommaAux s.data []).map TrimSpace).filter (fun t => !t.isEmpty)).map String.mk

/-- Trimmed, non-empty pieces. -/
def trimmedParts (l : List (List Char)) : List (List Char) :=
  (l.map TrimSpace).filter (fun t => !t.isEmpty)

/-! ## Concrete inputs -/

/-- Lower case of the ASCII letters, a `strings.ToLower` for ASCII text. -/
def asciiLower (s : String) : String := String.mk (s.data.map Char.toLower)

/-- An environment around a given transport: every non-empty string parses as a URL, a
location is resolved by appending it to the base, and `toLower` is `asciiLower`. -/
def sampleEnv (server : List Request → Request → Reply) : Env :=
  { server := server, urlParses := fun s => !s.isEmpty,
    resolveReference := fun base loc => base ++ loc, toLower := asciiLower }

/-- A client with the default configuration and the given chunk size, for which the
discovery request was not answered (`Opt` is `nil`). -/
def sampleClient (chunk : Int) : Client :=
  { Version := ProtocolVersion, Config := { DefaultConfig with ChunkSizeBytes := chunk },
    BaseUrl := "http://h/files/", Opt := none }

/-- The descriptor of `NewUploadFromBytes([]byte("1234567890"), "fp")`. -/
def sampleUpload : Upload :=
  { stream := { data := [49, 50, 51, 52, 53, 54, 55, 56, 57, 48], pos := 0 }, size := 10,
    offset := 0, Fingerprint := "fp", Metadata := [] }

/-- The engine `CreateUpload` returns for `sampleUpload`. -/
def sampleMgr (chunk : Int) : UploadMgr :=
  NewUploadMgr (sampleClient chunk) "http://h/files/1" sampleUpload 0

/-- A 204 reply with the given `Upload-Offset` value. -/
def reply204 (offset : String) : Reply :=
  .ok { statusCode := 204, header := [("Upload-Offset", [offset])], body := "" }

/-- A server whose upload is at offset `o0` before the first request of the log and that
accepts every chunk: 204 with the previous offset plus the bytes received. -/
def accServer (o0 : Int) : List Request → Request → Reply :=
  fun log req => reply204 (FormatInt (o0 + received log + req.body.length))

/-- A server that answers every request with 409 Conflict. -/
def conflictServer : List Request → Request → Reply :=
  fun _ _ => .ok { statusCode := 409, header := [], body := "" }

/-- One byte of the CRC-32 (IEEE) computation, bit by bit. -/
def crc32Step (crc b : Nat) : Nat :=
  (List.range 8).foldl (fun c _ => if c % 2 = 1 then (c / 2) ^^^ 0xEDB88320 else c / 2)
    (crc ^^^ b)

/-- The digest of Go's `crc32.NewIEEE()`: the checksum of the data, big-endian. -/
def crc32 (data : List Nat) : List Nat :=
  let h := (data.foldl crc32Step 0xFFFFFFFF) ^^^ 0xFFFFFFFF
  [h / 2 ^ 24 % 256, h / 2 ^ 16 % 256, h / 2 ^ 8 % 256, h % 256]

/-- An engine for `sampleUpload` with chunk size 5 whose client has the checksum algorithm
`crc32` configured, with a fresh hash, and the checksum extension negotiated. -/
def checksumMgr : UploadMgr :=
  NewUploadMgr
    { Version := ProtocolVersion,
      Config := { DefaultConfig with
        ChunkSizeBytes := 5, ChecksumAlg := "crc32",
        ChecksumFunc := some { written := [], digest := crc32 } },
      BaseUrl := "http://h/files/",
      Opt := some { creation := true, checksum := true } }
    "http://h/files/1" sampleUpload 0

/-- A configuration that differs from the default one only in its chunk size of 1. -/
def chunkOneConfig : Config := { DefaultConfig with ChunkSizeBytes := 1 }

/-- A descriptor of 92233720368547759 bytes at the given offset. -/
def hugeUpload (offset : Int) : Upload :=
  { sampleUpload with size := 92233720368547759, offset := offset }

/-- A server for one upload: a creation request is answered 201 with location `1`, a probe
200 with offset 7, a discovery request 204 with a list of extensions, and any other
request 204 with offset 10. -/
def tusServer : List Request → Request → Reply :=
  fun _ req =>
    if req.method = "POST" then
      .ok { statusCode := 201, header := [("Location", ["1"])], body := "" }
    else if req.method = "HEAD" then
      .ok { statusCode := 200, header := [("Upload-Offset", ["7"])], body := "" }
    else if req.method = "OPTIONS" then
      .ok { statusCode := 204,
            header := [("Tus-Extension", ["creation, Expiration ,,termination"]),
              ("Tus-Versions", ["0.2.2,1.0.0"])],
            body := "" }
    else reply204 "10"

/-! ## Metadata encoding as the specification words it -/

/-- Base64 as RFC 4648 words it: a group of three bytes is a 24-bit number read as four
6-bit values; a last group of one byte is padded with four zero bits to 12 bits and gives
two characters and `==`; a last group of two bytes is padded with two zero bits to 18 bits
and gives three characters and `=`. -/
def specBase64 : List Nat → List Char
  | [] => []
  | [a] => [b64Char (a * 16 / 64), b64Char (a * 16 % 64), '=', '=']
  | [a, b] =>
    [b64Char ((a * 256 + b) * 4 / 4096), b64Char ((a * 256 + b) * 4 / 64 % 64),
      b64Char ((a * 256 + b) * 4 % 64), '=']
  | a :: b :: c :: rest =>
    b64Char ((a * 65536 + b * 256 + c) / 262144)
      :: b64Char ((a * 65536 + b * 256 + c) / 4096 % 64)
      :: b64Char ((a * 65536 + b * 256 + c) / 64 % 64)
      :: b64Char ((a * 65536 + b * 256 + c) % 64) :: specBase64 rest

/-- The strings joined with a comma between neighbours. -/
def commaJoin : List String → String
  | [] => ""
  | [x] => x
  | x :: y :: rest => x ++ "," ++ commaJoin (y :: rest)

/-- One item of the encoded metadata as the specification words it: the key, a space and
the base64 form of the bytes of the value. -/
def metadataItem (kv : String × String) : String :=
  kv.1 ++ " " ++ String.mk (specBase64 (stringBytes kv.2))

/-! ## net/url (Go standard library, as of Go 1.22)

`url.Parse`, `URL.ResolveReference` and `URL.String` with the functions they call. A Go
string is a list of characters where it holds text of the input or escaped text, and a list
of bytes where `unescape` produced it. An error return is `none`; the text of the error is
left out. -/

/-- Go `encoding` of `net/url`: the part of a URL for which a text is escaped. -/
inductive Encoding where
  | encodePath
  | encodePathSegment
  | encodeHost
  | encodeZone
  | encodeUserPassword
  | encodeQueryComponent
  | encodeFragment
  deriving DecidableEq, Repr

/-- The bytes of a text of ASCII characters. -/
def asciiBytes (s : String) : List Nat := s.data.map Char.toNat

/-- The bytes of a character (UTF-8). -/
def charBytes (c : Char) : List Nat := (String.utf8EncodeChar c).map UInt8.toNat

/-- Go `shouldEscape`: whether the byte `c` is written as a percent escape in the given
part of a URL. -/
def shouldEscape (c : Nat) (mode : Encoding) : Bool :=
  if (97 ≤ c && c ≤ 122) || (65 ≤ c && c ≤ 90) || (48 ≤ c && c ≤ 57) then false
  else if (mode == .encodeHost || mode == .encodeZone)
      && (asciiBytes "!$&'()*+,;=:[]<>" ++ [34]).contains c then false
  else if (asciiBytes "-_.~").contains c then false
  else if (asciiBytes "$&+,/:;=?@").contains c then
    match mode with
    | .encodePath => c == 63
    | .encodePathSegment => (asciiBytes "/;,?").contains c
    | .encodeUserPassword => (asciiBytes "@/?:").contains c
    | .encodeQueryComponent => true
    | .encodeFragment => false
    | _ => true
  else if mode == .encodeFragment && (asciiBytes "!()*").contains c then false
  else true

/-- Go `ishex`. -/
def ishex (c : Char) : Bool :=
  (48 ≤ c.toNat && c.toNat ≤ 57) || (97 ≤ c.toNat && c.toNat ≤ 102)
    || (65 ≤ c.toNat && c.toNat ≤ 70)

/-- Go `unhex`. -/
def unhex (c : Char) : Nat :=
  if 48 ≤ c.toNat ∧ c.toNat ≤ 57 then c.toNat - 48
  else if 97 ≤ c.toNat ∧ c.toNat ≤ 102 then c.toNat - 97 + 10
  else if 65 ≤ c.toNat ∧ c.toNat ≤ 70 then c.toNat - 65 + 10
  else 0

/-- The first loop of Go `unescape`: every `%` is followed by two hexadecimal digits, a host
escapes only bytes from 0x80 on (and `%25`), a zone escapes only bytes a host may hold
(and `%25`, and the space), and a host or zone has no ASCII byte that must be escaped. -/
def unescapeOK (mode : Encoding) : List Char → Bool
  | [] => true
  | c :: rest =>
    if c = '%' then
      match rest with
      | a :: b :: rest2 =>
        if !ishex a || !ishex b then false
        else if mode == .encodeHost && unhex a < 8 && !(a == '2' && b == '5') then false
        else if mode == .encodeZone && !(a == '2' && b == '5') && unhex a * 16 + unhex b != 32
            && shouldEscape (unhex a * 16 + unhex b) .encodeHost then false
        else unescapeOK mode rest2
      | _ => false
    else if (mode == .encodeHost || mode == .encodeZone) && c.toNat < 128
        && shouldEscape c.toNat .encodeHost then false
    else unescapeOK mode rest

/-- The second loop of Go `unescape`: the bytes of the text with every escape replaced by
its byte (and `+` by a space in a query component). -/
def unescapeBytes (mode : Encoding) : List Char → List Nat
  | [] => []
  | c :: rest =>
    if c = '%' then
      match rest with
      | a :: b :: rest2 => (unhex a * 16 + unhex b) :: unescapeBytes mode rest2
      | _ => []
    else if c = '+' then
      (if mode = .encodeQueryComponent then 32 else 43) :: unescapeBytes mode rest
    else charBytes c ++ unescapeBytes mode rest

/-- Go `unescape`: `none` stands for the error. -/
def unescape (s : List Char) (mode : Encoding) : Option (List Nat) :=
  if unescapeOK mode s then some (unescapeBytes mode s) else none

/-- The digit of Go `upperhex` for a value below 16. -/
def upperhex (n : Nat) : Char := "0123456789ABCDEF".data.getD n '0'

/-- Go `escape`: every byte that `shouldEscape` names becomes `%XX` (a space in a query
component becomes `+`), every other byte stays. -/
def escape (s : List Nat) (mode : Encoding) : List Char :=
  s.flatMap (fun c =>
    if shouldEscape c mode then
      if c = 32 ∧ mode = .encodeQueryComponent then ['+']
      else ['%', upperhex (c / 16), upperhex (c % 16)]
    else [Char.ofNat c])

/-- Go `validEncoded`: every byte of the text may stand in the given part as it is. -/
def validEncoded (s : List Char) (mode : Encoding) : Bool :=
  s.all (fun c => "!$&'()*+,;=:@[]%".data.contains c || !shouldEscape c.toNat mode)

/-- Go `url.Userinfo`. -/
structure Userinfo where
  username : List Nat
  password : List Nat
  passwordSet : Bool
  deriving DecidableEq, Repr

/-- Go `url.URL`. Texts taken from the parsed text as they are (`Scheme`, `Opaque`,
`RawPath`, `RawQuery`, `RawFragment`) are lists of characters; texts that `unescape`
produced (`Host`, `Path`, `Fragment`, user name and password) are lists of bytes, since an
escape can stand for any byte. -/
structure URL where
  Scheme : List Char := []
  Opaque : List Char := []
  User : Option Userinfo := none
  Host : List Nat := []
  Path : List Nat := []
  RawPath : List Char := []
  OmitHost : Bool := false
  ForceQuery : Bool := false
  RawQuery : List Char := []
  Fragment : List Nat := []
  RawFragment : List Char := []
  deriving DecidableEq, Repr

/-- Go `strings.Cut(s, sep)` for a one-byte separator: the text before the first
separator, the text after it, and whether it was found. -/
def cut (sep : Char) : List Char → List Char × List Char × Bool
  | [] => ([], [], false)
  | c :: cs =>
    if c = sep then ([], cs, true)
    else (c :: (cut sep cs).1, (cut sep cs).2.1, (cut sep cs).2.2)

/-- Go `URL.EscapedPath`. -/
def URL.EscapedPath (u : URL) : List Char :=
  if u.RawPath ≠ [] ∧ validEncoded u.RawPath .encodePath = true
      ∧ unescape u.RawPath .encodePath = some u.Path then u.RawPath
  else if u.Path = [42] then ['*']
  else escape u.Path .encodePath

/-- Go `URL.EscapedFragment`. -/
def URL.EscapedFragment (u : URL) : List Char :=
  if u.RawFragment ≠ [] ∧ validEncoded u.RawFragment .encodeFragment = true
      ∧ unescape u.RawFragment .encodeFragment = some u.Fragment then u.RawFragment
  else escape u.Fragment .encodeFragment

/-- Go `Userinfo.String`. -/
def Userinfo.String (u : Userinfo) : List Char :=
  escape u.username .encodeUserPassword ++
    (if u.passwordSet then ':' :: escape u.password .encodeUserPassword else [])

/-- Go `URL.String`. -/
def URL.String (u : URL) : List Char :=
  let s1 : List Char := if u.Scheme != [] then u.Scheme ++ [':'] else []
  let s2 : List Char :=
    if u.Opaque != [] then s1 ++ u.Opaque
    else
      let auth : List Char :=
        if u.Scheme != [] || u.Host != [] || u.User.isSome then
          if u.OmitHost && u.Host == [] && u.User.isNone then []
          else
            (if u.Host != [] || u.Path != [] || u.User.isSome then ['/', '/'] else []) ++
              (match u.User with
                | some ui => ui.String ++ ['@']
                | none => []) ++
              escape u.Host .encodeHost
        else []
      let slash : List Char :=
        if u.EscapedPath != [] && u.EscapedPath.head? != some '/' && u.Host != [] then ['/']
        else []
      let dot : List Char :=
        if (s1 ++ auth ++ slash) == [] && (cut '/' u.EscapedPath).1.contains ':' then ['.', '/']
        else []
      s1 ++ auth ++ slash ++ dot ++ u.EscapedPath
  let s3 : List Char := if u.ForceQuery || u.RawQuery != [] then s2 ++ '?' :: u.RawQuery else s2
  if u.Fragment != [] then s3 ++ '#' :: u.EscapedFragment else s3

/-- The path with the given segments, each after a slash. -/
def pathOf : List (List Char) → List Char
  | [] => []
  | s :: rest => '/' :: (s ++ pathOf rest)

/-- The custom headers assigned one after the other onto a header (`_req.Header[k] = v`
for every entry of the configured map). -/
def applyCustom (custom : Header) (h : Header) : Header :=
  custom.foldl (fun h kv => mapSet h kv.1 kv.2) h

/-- A configuration whose custom headers name the protocol version header. -/
def versionHeaderClient : Client :=
  { sampleClient 5 with
    Config := { DefaultConfig with Header := some [("Tus-Resumable", ["0.2.2"])] } }

/-- A client whose override map sends PATCH as POST. -/
def overrideClient : Client :=
  { sampleClient 5 with
    Config := { DefaultConfig with
      Header := some [("X-Extra-Header", ["some value"])],
      HTTPMethodOverrides := some [("PATCH", "POST")] } }

/-- The client `sampleClient 5` whose store maps the fingerprint `fp` to the location
`http://h/files/1`, as after a creation. -/
def storedClient : Client :=
  { sampleClient 5 with
    Config := { (sampleClient 5).Config with Store := some [("fp", "http://h/files/1")] } }

/-! ## Auxiliary lemmas -/

theorem wrapInt64_of_range (x : Int) (h1 : -(2 ^ 63) ≤ x) (h2 : x < 2 ^ 63) : wrapInt64 x = x := by
  unfold wrapInt64
  rw [Int.emod_eq_of_lt (by linarith) (by linarith)]
  ring

theorem Progress_in_range (u : Upload) (h0 : 0 ≤ u.offset) (h1 : u.offset ≤ u.size)
    (h2 : u.size * 100 < 2 ^ 63) (hs : u.size ≠ 0) :
    u.Progress = u.offset * 100 / u.size := by
  unfold Upload.Progress
  rw [if_neg hs]
  have hpos : 0 < u.size := by omega
  rw [wrapInt64_of_range (u.offset * 100) (by linarith) (by nlinarith)]
  rw [Int.tdiv_eq_ediv (by positivity) (by omega)]
  apply wrapInt64_of_range
  · have : 0 ≤ u.offset * 100 / u.size := Int.ediv_nonneg (by positivity) (by omega)
    linarith
  · have : u.offset * 100 / u.size ≤ 100 := by
      apply Int.ediv_le_of_le_mul hpos
      nlinarith
    linarith

example : (Config.ValidateAndSetDefaults { DefaultConfig with ChunkSizeBytes := 1 }).1 = some .ErrChuckSize := by decide

theorem parseDigits_append (a b : List Char) (acc : Nat) :
    parseDigits (a ++ b) acc = (parseDigits a acc).bind (parseDigits b) := by
  induction a generalizing acc with
  | nil => rfl
  | cons c cs ih =>
    simp only [List.cons_append, parseDigits]
    split_ifs
    · exact ih _
    · rfl

theorem digit_toNat (d : Nat) (h : d < 10) : (Char.ofNat (48 + d)).toNat = 48 + d := by
  interval_cases d <;> rfl

theorem parseDigits_natDigits :
    ∀ (fuel n : Nat), n < 10 ^ fuel → ∀ acc : Nat,
      ∃ k, parseDigits (natDigits fuel n) acc = some (acc * 10 ^ k + n) := by
  intro fuel
  induction fuel with
  | zero =>
    intro n hn acc
    simp at hn
    subst hn
    exact ⟨0, by simp [natDigits, parseDigits]⟩
  | succ f ih =>
    intro n hn acc
    unfold natDigits
    by_cases h10 : n < 10
    · rw [if_pos h10]
      refine ⟨1, ?_⟩
      simp only [parseDigits, digit_toNat n h10]
      rw [if_pos (by omega)]
      simp
    · rw [if_neg h10]
      have hdiv : n / 10 < 10 ^ f := by
        rw [Nat.div_lt_iff_lt_mul (by norm_num)]
        rw [pow_succ] at hn
        exact hn
      obtain ⟨k, hk⟩ := ih (n / 10) hdiv acc
      refine ⟨k + 1, ?_⟩
      rw [parseDigits_append, hk]
      simp only [Option.some_bind, parseDigits, digit_toNat (n % 10) (Nat.mod_lt _ (by norm_num))]
      rw [if_pos (by omega)]
      congr 1
      have := Nat.div_add_mod n 10
      rw [pow_succ]
      have e : 48 + n % 10 - 48 = n % 10 := by omega
      rw [e]
      nlinarith

theorem natDigits_head (fuel n : Nat) :
    ∃ c cs, natDigits (fuel + 1) n = c :: cs ∧ c ≠ '+' ∧ c ≠ '-' := by
  induction fuel generalizing n with
  | zero =>
    unfold natDigits
    by_cases h10 : n < 10
    · rw [if_pos h10]
      refine ⟨_, _, rfl, ?_, ?_⟩ <;> (interval_cases n <;> decide)
    · rw [if_neg h10]
      simp only [natDigits, List.nil_append]
      have : n % 10 < 10 := Nat.mod_lt _ (by norm_num)
      refine ⟨_, _, rfl, ?_, ?_⟩ <;> (interval_cases (n % 10) <;> decide)
  | succ f ih =>
    unfold natDigits
    by_cases h10 : n < 10
    · rw [if_pos h10]
      refine ⟨_, _, rfl, ?_, ?_⟩ <;> (interval_cases n <;> decide)
    · rw [if_neg h10]
      obtain ⟨c, cs, h, h1, h2⟩ := ih (n / 10)
      rw [h]
      exact ⟨c, cs ++ _, rfl, h1, h2⟩

/-- Parsing the decimal form of an `int64` gives it back. -/
theorem ParseInt_FormatInt (i : Int) (h1 : minInt64 ≤ i) (h2 : i ≤ maxInt64) :
    ParseInt (FormatInt i) = (i, none) := by
  unfold minInt64 at h1
  unfold maxInt64 at h2
  have hlt : i.natAbs < 10 ^ (i.natAbs + 1) := by
    calc i.natAbs < i.natAbs + 1 := Nat.lt_succ_self _
      _ < 10 ^ (i.natAbs + 1) := Nat.lt_pow_self (by norm_num) _
  obtain ⟨k, hk⟩ := parseDigits_natDigits (i.natAbs + 1) i.natAbs hlt 0
  simp only [zero_mul, zero_add] at hk
  obtain ⟨c, cs, hcs, hp, hm⟩ := natDigits_head i.natAbs i.natAbs
  unfold FormatInt ParseInt
  by_cases hneg : i < 0
  · rw [if_pos hneg]
    simp only []
    rw [hcs] at hk ⊢
    simp only [splitSign, hk]
    have : ((i.natAbs : Nat) : Int) ≤ 2 ^ 63 := by omega
    simp only [this, if_true]
    congr 1
    omega
  · rw [if_neg hneg]
    simp only []
    rw [hcs] at hk ⊢
    have hsel : splitSign (c :: cs) = (false, c :: cs) := by
      unfold splitSign
      split
      · rename_i heq
        simp only [List.cons.injEq] at heq
        exact absurd heq.1 hp
      · rename_i heq
        simp only [List.cons.injEq] at heq
        exact absurd heq.1 hm
      · rfl
    rw [hsel]
    simp only [hk]
    have : ((i.natAbs : Nat) : Int) < 2 ^ 63 := by omega
    simp only [this, if_true]
    have e : ((i.natAbs : Nat) : Int) = i := by omega
    simp [e]

theorem outgoing_body (c : Client) (req : Request) : (c.outgoing req).body = req.body := by
  unfold Client.outgoing
  cases c.Config.HTTPMethodOverrides with
  | none => rfl
  | some m =>
    cases hm : m.lookup req.method <;> simp only [hm]

theorem outgoing_url (c : Client) (req : Request) : (c.outgoing req).url = req.url := by
  unfold Client.outgoing
  cases c.Config.HTTPMethodOverrides with
  | none => rfl
  | some m =>
    cases hm : m.lookup req.method <;> simp only [hm]

theorem uploadChunk_cases (env : Env) (c : Client) (log : List Request) (url : String)
    (buf : List Nat) (ck : String) (size offset : Int) :
    (env.urlParses url = false ∧ ∃ e, c.uploadChunk env log url buf ck size offset = ((-1, some e), log)) ∨
    (env.urlParses url = true ∧ ∃ sent : Request, sent.body = buf ∧ sent.url = url ∧
      c.uploadChunk env log url buf ck size offset =
        (chunkOutcome (env.server log sent), log ++ [sent])) := by
  unfold Client.uploadChunk NewRequest
  cases hu : env.urlParses url with
  | false => left; simp
  | true =>
    right
    simp only [if_true, true_and]
    generalize hreq : ({ method := "PATCH", url := url, header := _, body := buf } : Request) = req
    have hb : req.body = buf := by rw [← hreq]
    have hurl : req.url = url := by rw [← hreq]
    refine ⟨c.outgoing req, by rw [outgoing_body, hb], by rw [outgoing_url, hurl], ?_⟩
    unfold Client.Do chunkOutcome
    cases hs : env.server log (c.outgoing req) with
    | error msg => rfl
    | ok res =>
      simp only []
      by_cases h204 : res.statusCode = 204
      · simp only [h204, if_true]
        rcases hp : ParseInt (res.header.get "Upload-Offset") with ⟨n, _ | e⟩ <;> rfl
      · simp only [h204, if_false]
        split_ifs <;> rfl

theorem sameSetting_refl (a : UploadMgr) : a.sameSetting a := by
  unfold UploadMgr.sameSetting; simp

theorem sameSetting_trans {a b c : UploadMgr} (h1 : a.sameSetting b) (h2 : b.sameSetting c) :
    a.sameSetting c := by
  unfold UploadMgr.sameSetting at *
  obtain ⟨a1, a2, a3, a4, a5, a6, a7, a8, a9, a10, a11, a12, a13⟩ := h1
  obtain ⟨b1, b2, b3, b4, b5, b6, b7, b8, b9, b10, b11, b12, b13⟩ := h2
  exact ⟨b1.trans a1, b2.trans a2, b3.trans a3, b4.trans a4, b5.trans a5, b6.trans a6,
    b7.trans a7, b8.trans a8, b9.trans a9, b10.trans a10, b11.trans a11, b12.trans a12,
    b13.trans a13⟩

theorem Checksum_frame (um : UploadMgr) (b : List Nat) :
    um.sameSetting (um.Checksum b).2 ∧ (um.Checksum b).2.offset = um.offset ∧
    (um.Checksum b).2.upload = um.upload ∧ (um.Checksum b).2.notified = um.notified := by
  unfold UploadMgr.Checksum UploadMgr.sameSetting
  cases um.client.Config.ChecksumFunc with
  | none => simp
  | some h =>
    by_cases ha : um.client.Config.ChecksumAlg = ""
    · simp [ha]
    · simp [ha]

/-- The result of a chunk attempt: an error leaves the offsets and the notification count
as they were; success means that a request carrying the chunk bytes was sent, that the
reply was accepted, and that the engine and descriptor offsets are the accepted offset. -/
theorem UploadChunk_spec (env : Env) (um : UploadMgr) (log : List Request) :
    um.sameSetting (um.UploadChunk env log).2.1 ∧
    ((∃ e, (um.UploadChunk env log).1 = some e ∧
        (um.UploadChunk env log).2.1.offset = um.offset ∧
        (um.UploadChunk env log).2.1.upload.offset = um.upload.offset ∧
        (um.UploadChunk env log).2.1.notified = um.notified ∧
        (((um.UploadChunk env log).2.2 = log ∧
            (um.offset < 0 ∨ um.client.Config.ChunkSizeBytes < 0 ∨
              (um.upload.stream.data.length : Int) ≤ um.offset ∨ env.urlParses um.url = false)) ∨
          ∃ sent, (um.UploadChunk env log).2.2 = log ++ [sent] ∧
            sent.body = um.chunkBytes ∧ sent.url = um.url ∧
            (chunkOutcome (env.server log sent)).2 = some e)) ∨
     ((um.UploadChunk env log).1 = none ∧
        ∃ sent n, (um.UploadChunk env log).2.2 = log ++ [sent] ∧
          sent.body = um.chunkBytes ∧ sent.url = um.url ∧
          chunkOutcome (env.server log sent) = (n, none) ∧
          (um.UploadChunk env log).2.1.offset = n ∧
          (um.UploadChunk env log).2.1.upload.offset = n ∧
          (um.UploadChunk env log).2.1.notified = um.notified + 1)) := by
  unfold UploadMgr.UploadChunk Stream.Seek
  by_cases hneg : um.offset < 0
  · simp [hneg, sameSetting_refl]
  simp only [hneg, if_false]
  by_cases hc : um.client.Config.ChunkSizeBytes < 0
  · simp [hc, UploadMgr.sameSetting]
  simp only [hc, if_false]
  unfold Stream.Read
  by_cases heof : ((um.upload.stream.data.length : Int) ≤ um.offset)
  · simp [heof, UploadMgr.sameSetting]
  simp only [heof, if_false]
  generalize hum2 : ({ um with upload := _ } : UploadMgr) = um2
  have h2s : um.sameSetting um2 := by rw [← hum2]; simp [UploadMgr.sameSetting]
  have h2o : um2.offset = um.offset := by rw [← hum2]
  have h2u : um2.upload.offset = um.upload.offset := by rw [← hum2]
  have h2n : um2.notified = um.notified := by rw [← hum2]
  generalize hgot : (List.take um.client.Config.ChunkSizeBytes.toNat
    (List.drop um.offset.toNat um.upload.stream.data)) = got
  have hgot2 : got = um.chunkBytes := by rw [← hgot]; rfl
  obtain ⟨f1, f2, f3, f4⟩ := Checksum_frame um2 got
  rcases hck : um2.Checksum got with ⟨ck, um3⟩
  rw [hck] at f1 f2 f3 f4
  simp only [] at f1 f2 f3 f4 ⊢
  have h3s : um.sameSetting um3 := sameSetting_trans h2s f1
  have h3url : um3.url = um.url := h3s.1
  have h3o : um3.offset = um.offset := by rw [f2, h2o]
  have h3u : um3.upload.offset = um.upload.offset := by rw [f3, h2u]
  have h3n : um3.notified = um.notified := by rw [f4, h2n]
  rcases uploadChunk_cases env um3.client log um3.url got ck.1 got.length um3.offset with
    ⟨hnp, e, he⟩ | ⟨_, sent, hb, hu, hx⟩
  · rw [he]
    rw [h3url] at hnp
    exact ⟨h3s, Or.inl ⟨e, rfl, h3o, h3u, h3n, Or.inl ⟨rfl, Or.inr (Or.inr (Or.inr hnp))⟩⟩⟩
  · rw [hx]
    rcases hout : chunkOutcome (env.server log sent) with ⟨n, _ | e⟩
    · refine ⟨?_, Or.inr ⟨rfl, sent, n, rfl, by rw [hb, hgot2], by rw [hu, h3url], hout, rfl, rfl, ?_⟩⟩
      · unfold UploadMgr.sameSetting at h3s ⊢
        simpa [Upload.setOffset] using h3s
      · show um3.notified + 1 = um.notified + 1
        rw [h3n]
    · exact ⟨h3s, Or.inl ⟨e, rfl, h3o, h3u, h3n,
        Or.inr ⟨sent, rfl, by rw [hb, hgot2], by rw [hu, h3url], by rw [hout]⟩⟩⟩

theorem received_append (a : List Request) (r : Request) :
    received (a ++ [r]) = received a + r.body.length := by
  unfold received
  simp

/-- A failing chunk attempt ends the loop at once, with the state the attempt left. -/
theorem uploadLoop_failure (env : Env) (um : UploadMgr) (log : List Request) (fuel : Nat)
    (e : Err) (um1 : UploadMgr) (log1 : List Request)
    (hlt : um.offset < um.upload.size) (hab : um.aborted = false)
    (h : um.UploadChunk env log = (some e, um1, log1)) :
    um.uploadLoop env (fuel + 1) log = some (some e, um1, log1) := by
  unfold UploadMgr.uploadLoop
  rw [if_pos ⟨hlt, hab⟩, h]

theorem uploadLoop_log_length (env : Env) :
    ∀ (fuel : Nat) (um : UploadMgr) (log : List Request) (um1 : UploadMgr) (log1 : List Request),
      um.uploadLoop env fuel log = some (none, um1, log1) →
      (log1 = log ∧ um1 = um) ∨ log.length < log1.length := by
  intro fuel
  induction fuel with
  | zero =>
    intro um log um1 log1 h
    unfold UploadMgr.uploadLoop at h
    split_ifs at h with hc
    · simp at h
      left; exact ⟨h.2.symm, h.1.symm⟩
  | succ k ih =>
    intro um log um1 log1 h
    unfold UploadMgr.uploadLoop at h
    split_ifs at h with hc
    · obtain ⟨-, hs⟩ := UploadChunk_spec env um log
      rcases hx : um.UploadChunk env log with ⟨r, um2, log2⟩
      rw [hx] at h hs
      rcases hs with ⟨e, he, -⟩ | ⟨hn, sent, n, hl, -⟩
      · simp only [] at he
        subst he
        simp at h
      · simp only [] at hn hl
        subst hn hl
        simp only [] at h
        right
        rcases ih um2 _ um1 log1 h with ⟨h1, -⟩ | h1
        · rw [h1]; simp
        · simp at h1; omega
    · simp at h
      left; exact ⟨h.2.symm, h.1.symm⟩

theorem loopTrace_head (env : Env) (fuel : Nat) (um : UploadMgr) (log : List Request) :
    ∃ tl, um.loopTrace env fuel log = um :: tl := by
  unfold UploadMgr.loopTrace
  split_ifs with h
  · cases fuel with
    | zero => exact ⟨_, rfl⟩
    | succ k =>
      simp only []
      rcases um.UploadChunk env log with ⟨_ | e, um1, log1⟩
      · exact ⟨_, rfl⟩
      · exact ⟨_, rfl⟩
  · exact ⟨_, rfl⟩

theorem loopTrace_last (env : Env) :
    ∀ (fuel : Nat) (um : UploadMgr) (log : List Request) (r : Option Err) (um1 : UploadMgr)
      (log1 : List Request),
      um.uploadLoop env fuel log = some (r, um1, log1) →
      (um.loopTrace env fuel log).getLast? = some um1 := by
  intro fuel
  induction fuel with
  | zero =>
    intro um log r um1 log1 h
    unfold UploadMgr.uploadLoop at h
    unfold UploadMgr.loopTrace
    split_ifs at h ⊢ with hc
    simp only [Option.some.injEq, Prod.mk.injEq] at h
    rw [h.2.1]
    rfl
  | succ k ih =>
    intro um log r um1 log1 h
    unfold UploadMgr.uploadLoop at h
    unfold UploadMgr.loopTrace
    split_ifs at h ⊢ with hc
    · obtain ⟨tl, htl⟩ := loopTrace_head env k (um.UploadChunk env log).2.1
        (um.UploadChunk env log).2.2
      rcases hx : um.UploadChunk env log with ⟨_ | e, um2, log2⟩
      · rw [hx] at h htl
        simp only [] at h htl ⊢
        have := ih um2 log2 r um1 log1 h
        rw [htl] at this ⊢
        rw [List.getLast?_cons_cons]
        exact this
      · rw [hx] at h
        simp only [Option.some.injEq, Prod.mk.injEq] at h ⊢
        rw [h.2.1]
        rfl
    · simp only [Option.some.injEq, Prod.mk.injEq] at h
      rw [h.2.1]
      rfl

/-- The last state of the trace is the state `Upload` returns with. -/
theorem UploadTrace_last (env : Env) (fuel : Nat) (um : UploadMgr) (log : List Request)
    (r : Option Err) (um1 : UploadMgr) (log1 : List Request)
    (h : um.Upload env fuel log = some (r, um1, log1)) :
    (um.UploadTrace env fuel log).getLast? = some um1 := by
  unfold UploadMgr.Upload at h
  unfold UploadMgr.UploadTrace
  split_ifs at h ⊢ with hc
  · simp only [Option.some.injEq, Prod.mk.injEq] at h
    rw [← h.2.1]
    rfl
  · exact loopTrace_last env fuel um log r um1 log1 h

theorem repliesWithin_step (size lo n : Int) (rs : List Reply) (k : Nat)
    (h : repliesWithin size lo (rs.drop k) = true)
    (hn : chunkOutcome (rs.getD k (.error "no reply")) = (n, none)) :
    lo ≤ n ∧ n ≤ size ∧ repliesWithin size n (rs.drop (k + 1)) = true := by
  rcases hd : rs.drop k with _ | ⟨r, rest⟩
  · have hk : rs.length ≤ k := by simpa using hd
    rw [List.getD_eq_default _ _ hk] at hn
    simp [chunkOutcome] at hn
  · have hget : rs.getD k (.error "no reply") = r := by
      have h1 : (rs.drop k)[0]? = some r := by rw [hd]; simp
      rw [List.getElem?_drop] at h1
      simp only [add_zero] at h1
      rw [List.getD_eq_getElem?_getD, h1]
      rfl
    have hrest : rs.drop (k + 1) = rest := by
      have : rs.drop (k + 1) = (rs.drop k).drop 1 := by rw [List.drop_drop]
      rw [this, hd]; rfl
    rw [hget] at hn
    rw [hd] at h
    rw [hrest]
    cases r with
    | error msg => simp [chunkOutcome] at hn
    | ok res =>
      unfold repliesWithin at h
      unfold chunkOutcome at hn
      by_cases h204 : res.statusCode = 204
      · simp only [h204, if_true] at h hn
        rcases hp : ParseInt (res.header.get "Upload-Offset") with ⟨m, _ | e⟩
        · rw [hp] at h hn
          simp only [Prod.mk.injEq, and_true] at hn
          subst hn
          simp only [Bool.and_eq_true, decide_eq_true_eq] at h
          exact ⟨h.1.1, h.1.2, h.2⟩
        · rw [hp] at h
          simp at h
      · simp only [h204, if_false] at hn
        split_ifs at hn <;> simp at hn

theorem loopTrace_offsets (env : Env) (rs : List Reply) (hsrv : env.server = seqServer rs) :
    ∀ (fuel : Nat) (um : UploadMgr) (log : List Request),
      0 ≤ um.upload.offset → um.upload.offset ≤ um.offset → um.offset ≤ um.upload.size →
      repliesWithin um.upload.size um.offset (rs.drop log.length) = true →
      (∀ st ∈ um.loopTrace env fuel log,
        0 ≤ st.upload.offset ∧ st.upload.offset ≤ st.upload.size) ∧
      List.Chain' (fun a b : UploadMgr => a.upload.offset ≤ b.upload.offset)
        (um.loopTrace env fuel log) := by
  intro fuel
  induction fuel with
  | zero =>
    intro um log h0 h1 h2 _
    unfold UploadMgr.loopTrace
    split_ifs
    · simp only [List.mem_singleton, forall_eq, List.chain'_singleton, and_true]
      exact ⟨h0, by omega⟩
    · simp only [List.mem_singleton, forall_eq, List.chain'_singleton, and_true]
      exact ⟨h0, by omega⟩
  | succ k ih =>
    intro um log h0 h1 h2 hrs
    unfold UploadMgr.loopTrace
    split_ifs with hc
    · obtain ⟨hset, hs⟩ := UploadChunk_spec env um log
      obtain ⟨tl, htl⟩ := loopTrace_head env k (um.UploadChunk env log).2.1
        (um.UploadChunk env log).2.2
      rcases hx : um.UploadChunk env log with ⟨r, um1, log1⟩
      rw [hx] at hs hset htl
      have hsize : um1.upload.size = um.upload.size := hset.2.2.1
      rcases hs with ⟨e, he, -, hu, -⟩ | ⟨hn, sent, n, hl, -, -, hout, ho, hu, -⟩
      · have he1 : r = some e := he
        have hu1 : um1.upload.offset = um.upload.offset := hu
        subst he1
        simp only [List.mem_cons, List.mem_singleton, forall_eq_or_imp, forall_eq,
          List.not_mem_nil, false_implies, implies_true, and_true]
        refine ⟨⟨⟨h0, by omega⟩, ⟨by omega, by omega⟩⟩, ?_⟩
        simp only [List.chain'_cons, List.chain'_singleton, and_true]
        omega
      · have hn1 : r = none := hn
        have hl1 : log1 = log ++ [sent] := hl
        have ho1 : um1.offset = n := ho
        have hu1 : um1.upload.offset = n := hu
        subst hn1
        simp only []
        rw [hsrv] at hout
        unfold seqServer at hout
        obtain ⟨b1, b2, b3⟩ := repliesWithin_step um.upload.size um.offset n rs log.length hrs hout
        have hlen : log1.length = log.length + 1 := by rw [hl1]; simp
        obtain ⟨i1, i2⟩ := ih um1 log1 (by omega) (by omega) (by omega)
          (by rw [hsize, ho1, hlen]; exact b3)
        constructor
        · intro st hst
          rcases List.mem_cons.mp hst with hst | hst
          · rw [hst]; exact ⟨h0, by omega⟩
          · exact i1 st hst
        · have htl1 : UploadMgr.loopTrace env k um1 log1 = um1 :: tl := htl
          rw [htl1] at i2 ⊢
          rw [List.chain'_cons]
          exact ⟨by omega, i2⟩
    · simp only [List.mem_singleton, forall_eq, List.chain'_singleton, and_true]
      exact ⟨h0, by omega⟩

theorem chunkBytes_length (um : UploadMgr) (h0 : 0 ≤ um.offset)
    (hc : 0 ≤ um.client.Config.ChunkSizeBytes) :
    (um.chunkBytes.length : Int) =
      min um.client.Config.ChunkSizeBytes ((um.upload.stream.data.length : Int) - um.offset) ∨
    ((um.upload.stream.data.length : Int) < um.offset ∧ um.chunkBytes.length = 0) := by
  unfold UploadMgr.chunkBytes
  simp only [List.length_take, List.length_drop]
  omega

theorem uploadLoop_completes (env : Env) (log0 : List Request) (o0 s : Int)
    (hsrv : ∀ (log1 : List Request) (req : Request),
      o0 + received log1 + req.body.length ≤ s →
      ∃ res, env.server (log0 ++ log1) req = .ok res ∧ res.statusCode = 204 ∧
        ParseInt (res.header.get "Upload-Offset") =
          (o0 + received log1 + req.body.length, none)) :
    ∀ (fuel : Nat) (um : UploadMgr) (log1 : List Request),
      um.offset = o0 + received log1 → 0 ≤ um.offset → um.offset ≤ s →
      um.upload.size = s → (um.upload.stream.data.length : Int) = s →
      0 < um.client.Config.ChunkSizeBytes → um.aborted = false →
      env.urlParses um.url = true → (s - um.offset).toNat ≤ fuel →
      ∃ um1 logf, um.uploadLoop env fuel (log0 ++ log1) = some (none, um1, logf) ∧
        um1.offset = s ∧
        (um1.upload.offset = s ∨ (um.offset = s ∧ um1.upload.offset = um.upload.offset)) := by
  intro fuel
  induction fuel with
  | zero =>
    intro um log1 ho h0 h1 hsz hlen hc hab hurl hf
    have : um.offset = s := by omega
    unfold UploadMgr.uploadLoop
    rw [if_neg (by omega)]
    exact ⟨um, _, rfl, this, Or.inr ⟨this, rfl⟩⟩
  | succ k ih =>
    intro um log1 ho h0 h1 hsz hlen hc hab hurl hf
    unfold UploadMgr.uploadLoop
    by_cases hlt : um.offset < um.upload.size
    · rw [if_pos ⟨hlt, hab⟩]
      obtain ⟨hset, hs⟩ := UploadChunk_spec env um (log0 ++ log1)
      have hcb := chunkBytes_length um h0 (le_of_lt hc)
      have hsent : ∀ sent : Request, sent.body = um.chunkBytes →
          chunkOutcome (env.server (log0 ++ log1) sent) =
            (um.offset + um.chunkBytes.length, none) := by
        intro sent hb
        obtain ⟨res, hr, h204, hp⟩ := hsrv log1 sent (by rw [hb]; omega)
        rw [hr]
        unfold chunkOutcome
        simp only [h204, if_true]
        rw [hp, hb, ho]
      rcases hx : um.UploadChunk env (log0 ++ log1) with ⟨r, um1, logx⟩
      rw [hx] at hs hset
      rcases hs with ⟨e, he, -, -, -, ⟨-, hbad⟩ | ⟨sent, -, hb, -, hout⟩⟩ |
          ⟨hn, sent, n, hl, hb, -, hout, hoff, hu, -⟩
      · exfalso
        rcases hbad with hbad | hbad | hbad | hbad
        · omega
        · omega
        · omega
        · rw [hurl] at hbad
          simp at hbad
      · exfalso
        rw [hsent sent hb] at hout
        simp at hout
      · have hn1 : r = none := hn
        have hl1 : logx = log0 ++ log1 ++ [sent] := hl
        have ho1 : um1.offset = n := hoff
        have hu1 : um1.upload.offset = n := hu
        subst hn1
        rw [hsent sent hb] at hout
        have hnv : um.offset + um.chunkBytes.length = n := by
          have := congrArg Prod.fst hout
          simpa using this
        have hl2 : logx = log0 ++ (log1 ++ [sent]) := by rw [hl1]; simp
        simp only []
        rw [hl2]
        obtain ⟨g1, g2, g3, g4, g5, g6, g7, g8, g9, g10, g11, g12, g13⟩ := hset
        obtain ⟨um2, logf, e1, e2, e3⟩ := ih um1 (log1 ++ [sent])
          (by rw [ho1, received_append, hb, ← hnv, ho]; ring)
          (by omega) (by omega) (by rw [g3, hsz]) (by rw [g4]; exact hlen)
          (by rw [g9]; exact hc) (by rw [g2]; exact hab) (by rw [g1]; exact hurl) (by omega)
        refine ⟨um2, logf, e1, e2, ?_⟩
        rcases e3 with e3 | ⟨e3, e4⟩
        · exact Or.inl e3
        · left; rw [e4, hu1, ← ho1, e3]
    · rw [if_neg (by tauto)]
      have : um.offset = s := by omega
      exact ⟨um, _, rfl, this, Or.inr ⟨this, rfl⟩⟩

theorem get_single (k v : String) (h : canonicalMIMEHeaderKey k = k) :
    Header.get [(k, [v])] k = v := by
  unfold Header.get
  rw [h]
  simp [List.lookup]

theorem accServer_reports (o s : Int) (ho : 0 ≤ o) (hs : s ≤ maxInt64)
    (log1 : List Request) (req : Request) (h : o + received log1 + req.body.length ≤ s) :
    ∃ res, (sampleEnv (accServer o)).server ([] ++ log1) req = .ok res ∧ res.statusCode = 204 ∧
      ParseInt (res.header.get "Upload-Offset") = (o + received log1 + req.body.length, none) := by
  refine ⟨_, rfl, rfl, ?_⟩
  have hr : 0 ≤ received log1 := by unfold received; positivity
  simp only [List.nil_append]
  rw [get_single _ _ (by decide)]
  apply ParseInt_FormatInt
  · unfold minInt64; omega
  · omega

theorem getUploadOffset_eq (env : Env) (c : Client) (log : List Request) (url : String) :
    c.getUploadOffset env log url =
      if env.urlParses url then
        (probeOutcome (env.server log (c.probeRequest url)), log ++ [c.probeRequest url])
      else ((0, some (.other ("parse " ++ url.quote ++ ": invalid URL"))), log) := by
  unfold Client.getUploadOffset NewRequest Client.probeRequest Client.Do probeOutcome
  cases hu : env.urlParses url with
  | false => simp
  | true =>
    simp only [if_true]
    cases hs : env.server log (c.outgoing { method := "HEAD", url := url, header := [], body := [] }) with
    | error msg => rfl
    | ok res =>
      simp only []
      by_cases h200 : res.statusCode = 200
      · simp only [h200, if_true]
        rcases hp : ParseInt (res.header.get "Upload-Offset") with ⟨n, _ | e⟩ <;> rfl
      · simp only [h200, if_false]
        split_ifs <;> rfl

theorem probeOutcome_notFound (r : Reply) :
    (probeOutcome r).2 = some .ErrUploadNotFound ↔
      ∃ res, r = .ok res ∧ (res.statusCode = 403 ∨ res.statusCode = 404 ∨ res.statusCode = 410) := by
  unfold probeOutcome
  cases r with
  | error msg => simp
  | ok res =>
    simp only [Except.ok.injEq, exists_eq_left']
    by_cases h200 : res.statusCode = 200
    · simp only [h200, if_true]
      rcases hp : ParseInt (res.header.get "Upload-Offset") with ⟨n, _ | e⟩
      · simp
      · simp only []
        unfold ParseInt at hp
        split at hp
        · simp at hp; rw [← hp.2]; simp
        · split at hp
          · simp at hp; rw [← hp.2]; simp
          · split_ifs at hp <;> simp at hp <;> (try (rw [← hp.2]; simp))
    · simp only [h200, if_false]
      split_ifs with h1 h2
      · simp [h1]
      · simp [h1]
      · simp [h1, newClientError]

theorem ResumeUpload_eq (env : Env) (c : Client) (log : List Request) (u : Upload) :
    c.ResumeUpload env log (some u) =
      if u.Fingerprint.length = 0 then (.error .ErrFingerprintUnset, log)
      else
        match c.Config.Store with
        | none =>
          (.error (.panic "runtime error: invalid memory address or nil pointer dereference"), log)
        | some store =>
          match store.lookup u.Fingerprint with
          | none => (.error .ErrUploadNotFound, log)
          | some url =>
            if env.urlParses url then
              match probeOutcome (env.server log (c.probeRequest url)) with
              | (_, some e) => (.error e, log ++ [c.probeRequest url])
              | (offset, none) => (.ok (NewUploadMgr c url u offset), log ++ [c.probeRequest url])
            else (.error (.other ("parse " ++ url.quote ++ ": invalid URL")), log) := by
  unfold Client.ResumeUpload
  simp only []
  split_ifs with hf
  · rfl
  · cases c.Config.Store with
    | none => rfl
    | some store =>
      simp only [MemoryStore.Get]
      cases store.lookup u.Fingerprint with
      | none => rfl
      | some url =>
        simp only [getUploadOffset_eq]
        cases env.urlParses url with
        | false => rfl
        | true =>
          simp only [if_true]
          rcases probeOutcome (env.server log (c.probeRequest url)) with ⟨n, _ | e⟩ <;> rfl

theorem length_eq_zero_iff (s : String) : s.length = 0 ↔ s = "" := by
  constructor
  · intro h
    have h1 : s.data = [] := by
      have : s.data.length = 0 := h
      exact List.length_eq_zero.mp this
    exact String.ext h1
  · intro h
    rw [h]
    rfl

theorem lookup_mapSet {β : Type} (m : List (String × β)) (k : String) (v : β) :
    (mapSet m k v).lookup k = some v := by
  unfold mapSet
  simp [List.lookup]

theorem CreateUpload_ok (env : Env) (c : Client) (log : List Request) (u : Upload)
    (um : UploadMgr) (c1 : Client) (log1 : List Request)
    (h : c.CreateUpload env log (some u) = (.ok um, c1, log1)) :
    ∃ res store url, env.server log (c.createRequest u) = .ok res ∧ res.statusCode = 201 ∧
      url = env.resolveReference c.BaseUrl (res.header.get "Location") ∧
      c.Config.Store = some store ∧
      log1 = log ++ [c.createRequest u] ∧
      c1 = { c with Config := { c.Config with Store := some (store.Set u.Fingerprint url) } } ∧
      um = NewUploadMgr c1 url u 0 := by
  unfold Client.CreateUpload at h
  split_ifs at h with h0
  · simp at h
  · simp only [NewRequest] at h
    cases hu : env.urlParses c.BaseUrl with
    | false => rw [hu] at h; simp at h
    | true =>
      rw [hu] at h
      simp only [if_true, Client.Do] at h
      rw [show c.outgoing _ = c.createRequest u from rfl] at h
      cases hs : env.server log (c.createRequest u) with
      | error msg => rw [hs] at h; simp at h
      | ok res =>
        rw [hs] at h
        simp only [] at h
        split_ifs at h with h201 h412 h413
        · unfold Client.resolveLocationURL at h
          simp only [hu] at h
          cases hl : env.urlParses (res.header.get "Location") with
          | false => rw [hl] at h; simp at h
          | true =>
            rw [hl] at h
            simp only [Bool.not_true, Bool.false_eq_true, if_false] at h
            cases hst : c.Config.Store with
            | none => rw [hst] at h; simp at h
            | some store =>
              rw [hst] at h
              simp only [Prod.mk.injEq, Except.ok.injEq] at h
              obtain ⟨e1, e2, e3⟩ := h
              refine ⟨res, store, _, rfl, h201, rfl, rfl, e3.symm, e2.symm, ?_⟩
              rw [← e1, ← e2]
        · simp at h
        · simp at h
        · simp at h

theorem optionsExtensions_cons_known (env : Env) (hdr : Header) (t : String)
    (rest : List String) (o : TusOption) (ht : env.toLower t ∈ knownExtensions) :
    optionsExtensions env "" hdr (t :: rest) o =
      optionsExtensions env "" hdr rest (setFlag (env.toLower t) o) := by
  rw [optionsExtensions]
  unfold setFlag
  simp only [knownExtensions, List.mem_cons, List.mem_singleton, List.not_mem_nil,
    or_false] at ht
  generalize env.toLower t = l at ht ⊢
  have hempty : ("" : String) = "" := rfl
  simp only [hempty, if_true]
  split_ifs <;> first | rfl | (exfalso; tauto) | (exfalso; simp_all)

theorem optionsExtensions_cons_unknown (env : Env) (hdr : Header) (t : String)
    (rest : List String) (o : TusOption) (ht : env.toLower t ∉ knownExtensions) :
    optionsExtensions env "" hdr (t :: rest) o =
      (some (.other ("unknown extension: " ++ t)), o) := by
  rw [optionsExtensions]
  simp only [knownExtensions, List.mem_cons, List.mem_singleton, List.not_mem_nil,
    or_false, not_or] at ht
  generalize env.toLower t = l at ht ⊢
  obtain ⟨k1, k2, k3, k4, k5, k6, k7, k8⟩ := ht
  simp only [k1, k2, k3, k4, k5, k6, k7, k8, if_false]

theorem setFlag_flags (l : String) (o : TusOption) :
    ((setFlag l o).creation = true ↔ o.creation = true ∨ l = "creation") ∧
    ((setFlag l o).creationDeferLength = true ↔
      o.creationDeferLength = true ∨ l = "creation-defer-length") ∧
    ((setFlag l o).creationWithUpload = true ↔
      o.creationWithUpload = true ∨ l = "creation-with-upload") ∧
    ((setFlag l o).concatenation = true ↔ o.concatenation = true ∨ l = "concatenation") ∧
    ((setFlag l o).expiration = true ↔ o.expiration = true ∨ l = "expiration") ∧
    ((setFlag l o).checksumTrailer = true ↔ o.checksumTrailer = true ∨ l = "checksum-trailer") ∧
    (setFlag l o).checksum = o.checksum ∧ (setFlag l o).maxSizeBytes = o.maxSizeBytes := by
  unfold setFlag
  split_ifs with h1 h2 h3 h4 h5 h6
  · refine ⟨?_, ?_, ?_, ?_, ?_, ?_, rfl, rfl⟩ <;> simp [h1]
  · refine ⟨?_, ?_, ?_, ?_, ?_, ?_, rfl, rfl⟩ <;> simp [h2]
  · refine ⟨?_, ?_, ?_, ?_, ?_, ?_, rfl, rfl⟩ <;> simp [h3]
  · refine ⟨?_, ?_, ?_, ?_, ?_, ?_, rfl, rfl⟩ <;> simp [h4]
  · refine ⟨?_, ?_, ?_, ?_, ?_, ?_, rfl, rfl⟩ <;> simp [h5]
  · refine ⟨?_, ?_, ?_, ?_, ?_, ?_, rfl, rfl⟩ <;> simp [h6]
  · refine ⟨?_, ?_, ?_, ?_, ?_, ?_, rfl, rfl⟩ <;> simp [h1, h2, h3, h4, h5, h6]

theorem optionsExtensions_known (env : Env) (hdr : Header) :
    ∀ (toks : List String) (o : TusOption),
      (∀ t ∈ toks, env.toLower t ∈ knownExtensions) →
      (optionsExtensions env "" hdr toks o).1 = none ∧
      ((optionsExtensions env "" hdr toks o).2.creation = true ↔
        o.creation = true ∨ "creation" ∈ toks.map env.toLower) ∧
      ((optionsExtensions env "" hdr toks o).2.creationDeferLength = true ↔
        o.creationDeferLength = true ∨ "creation-defer-length" ∈ toks.map env.toLower) ∧
      ((optionsExtensions env "" hdr toks o).2.creationWithUpload = true ↔
        o.creationWithUpload = true ∨ "creation-with-upload" ∈ toks.map env.toLower) ∧
      ((optionsExtensions env "" hdr toks o).2.concatenation = true ↔
        o.concatenation = true ∨ "concatenation" ∈ toks.map env.toLower) ∧
      ((optionsExtensions env "" hdr toks o).2.expiration = true ↔
        o.expiration = true ∨ "expiration" ∈ toks.map env.toLower) ∧
      ((optionsExtensions env "" hdr toks o).2.checksumTrailer = true ↔
        o.checksumTrailer = true ∨ "checksum-trailer" ∈ toks.map env.toLower) ∧
      (optionsExtensions env "" hdr toks o).2.checksum = o.checksum ∧
      (optionsExtensions env "" hdr toks o).2.maxSizeBytes = o.maxSizeBytes := by
  intro toks
  induction toks with
  | nil =>
    intro o _
    simp [optionsExtensions]
  | cons t rest ih =>
    intro o hk
    have ht : env.toLower t ∈ knownExtensions := hk t (List.mem_cons_self _ _)
    have hrest : ∀ t ∈ rest, env.toLower t ∈ knownExtensions :=
      fun x hx => hk x (List.mem_cons_of_mem _ hx)
    rw [optionsExtensions_cons_known env hdr t rest o ht]
    obtain ⟨a, b1, b2, b3, b4, b5, b6, b7, b8⟩ := ih (setFlag (env.toLower t) o) hrest
    obtain ⟨c1, c2, c3, c4, c5, c6, c7, c8⟩ := setFlag_flags (env.toLower t) o
    simp only [List.map_cons, List.mem_cons]
    refine ⟨a, ?_, ?_, ?_, ?_, ?_, ?_, b7.trans c7, b8.trans c8⟩
    · rw [b1, c1, or_assoc, @eq_comm _ (env.toLower t)]
    · rw [b2, c2, or_assoc, @eq_comm _ (env.toLower t)]
    · rw [b3, c3, or_assoc, @eq_comm _ (env.toLower t)]
    · rw [b4, c4, or_assoc, @eq_comm _ (env.toLower t)]
    · rw [b5, c5, or_assoc, @eq_comm _ (env.toLower t)]
    · rw [b6, c6, or_assoc, @eq_comm _ (env.toLower t)]

theorem optionsExtensions_unknown (env : Env) (hdr : Header) :
    ∀ (toks : List String) (o : TusOption),
      (∃ t ∈ toks, env.toLower t ∉ knownExtensions) →
      ∃ ext ∈ toks, env.toLower ext ∉ knownExtensions ∧
        (optionsExtensions env "" hdr toks o).1 = some (.other ("unknown extension: " ++ ext)) := by
  intro toks
  induction toks with
  | nil =>
    intro o h
    simp at h
  | cons t rest ih =>
    intro o h
    by_cases ht : env.toLower t ∈ knownExtensions
    · have hrest : ∃ x ∈ rest, env.toLower x ∉ knownExtensions := by
        obtain ⟨x, hx, hb⟩ := h
        rcases List.mem_cons.mp hx with hx | hx
        · subst hx; exact absurd ht hb
        · exact ⟨x, hx, hb⟩
      rw [optionsExtensions_cons_known env hdr t rest o ht]
      obtain ⟨e, he, hb, hr⟩ := ih (setFlag (env.toLower t) o) hrest
      exact ⟨e, List.mem_cons_of_mem _ he, hb, hr⟩
    · refine ⟨t, List.mem_cons_self _ _, ht, ?_⟩
      rw [optionsExtensions_cons_unknown env hdr t rest o ht]

theorem isReSpace_isSpace (c : Char) (h : isReSpace c = true) : isSpace c = true := by
  unfold isReSpace at h
  simp only [Bool.or_eq_true, beq_iff_eq] at h
  rcases h with (((h | h) | h) | h) | h <;> subst h <;> decide

theorem isReSpace_ne_comma (c : Char) (h : isReSpace c = true) : c ≠ ',' := by
  intro hc
  subst hc
  exact absurd h (by decide)

theorem dropWhile_append_all {α : Type} (p : α → Bool) (w l : List α)
    (hw : ∀ x ∈ w, p x = true) : (w ++ l).dropWhile p = l.dropWhile p := by
  induction w with
  | nil => rfl
  | cons a w ih =>
    have ha : p a = true := hw a (List.mem_cons_self _ _)
    simp only [List.cons_append, List.dropWhile_cons, ha, if_true]
    exact ih (fun x hx => hw x (List.mem_cons_of_mem _ hx))

theorem dropWhile_all {α : Type} (p : α → Bool) (w : List α)
    (hw : ∀ x ∈ w, p x = true) : w.dropWhile p = [] := by
  have := dropWhile_append_all p w [] hw
  simpa using this

theorem dropWhile_append_of_ne_nil {α : Type} (p : α → Bool) (l w : List α)
    (h : l.dropWhile p ≠ []) : (l ++ w).dropWhile p = l.dropWhile p ++ w := by
  induction l with
  | nil => simp at h
  | cons a l ih =>
    simp only [List.cons_append, List.dropWhile_cons] at h ⊢
    by_cases ha : p a = true
    · simp only [ha, if_true] at h ⊢
      exact ih h
    · simp only [ha] at h ⊢
      rfl

theorem TrimSpace_append_space (q w : List Char) (hw : ∀ x ∈ w, isSpace x = true) :
    TrimSpace (q ++ w) = TrimSpace q := by
  unfold TrimSpace
  by_cases h : q.dropWhile isSpace = []
  · have hall : ∀ x ∈ q, isSpace x = true := by
      intro x hx
      by_contra hx2
      have := List.dropWhile_eq_nil_iff.mp h x hx
      exact hx2 this
    rw [dropWhile_append_all isSpace q w hall, dropWhile_all isSpace w hw, h]
  · rw [dropWhile_append_of_ne_nil isSpace q w h, List.reverse_append,
      dropWhile_append_all isSpace w.reverse _ (fun x hx => hw x (List.mem_reverse.mp hx))]

theorem TrimSpace_space_append (w q : List Char) (hw : ∀ x ∈ w, isSpace x = true) :
    TrimSpace (w ++ q) = TrimSpace q := by
  unfold TrimSpace
  rw [dropWhile_append_all isSpace w q hw]

theorem TrimSpace_nil : TrimSpace [] = [] := rfl

theorem trimmedParts_cons (p : List Char) (l : List (List Char)) :
    trimmedParts (p :: l) =
      (if (TrimSpace p).isEmpty then [] else [TrimSpace p]) ++ trimmedParts l := by
  unfold trimmedParts
  simp only [List.map_cons, List.filter_cons]
  by_cases h : (TrimSpace p).isEmpty = true
  · simp [h]
  · simp [h]

theorem splitCommaAux_append_nocomma (w rest cur : List Char) (hw : ∀ x ∈ w, x ≠ ',') :
    splitCommaAux (w ++ rest) cur = splitCommaAux rest (w.reverse ++ cur) := by
  induction w generalizing cur with
  | nil => rfl
  | cons a w ih =>
    have ha : a ≠ ',' := hw a (List.mem_cons_self _ _)
    change splitCommaAux (a :: (w ++ rest)) cur = _
    rw [splitCommaAux, if_neg ha, ih (a :: cur) (fun x hx => hw x (List.mem_cons_of_mem _ hx))]
    simp

theorem trimmedParts_commas (k rest : List Char) (hk : ∀ x ∈ k, x = ',') :
    trimmedParts (splitCommaAux (k ++ rest) []) = trimmedParts (splitCommaAux rest []) := by
  induction k with
  | nil => rfl
  | cons a k ih =>
    have ha : a = ',' := hk a (List.mem_cons_self _ _)
    change trimmedParts (splitCommaAux (a :: (k ++ rest)) []) = _
    rw [splitCommaAux, if_pos ha, trimmedParts_cons]
    simp only [List.reverse_nil, TrimSpace_nil, List.isEmpty_nil, if_true, List.nil_append]
    exact ih (fun x hx => hk x (List.mem_cons_of_mem _ hx))

theorem trimmedParts_leading_space (xs cur w : List Char) (hw : ∀ x ∈ w, isSpace x = true) :
    trimmedParts (splitCommaAux xs (cur ++ w)) = trimmedParts (splitCommaAux xs cur) := by
  induction xs generalizing cur with
  | nil =>
    simp only [splitCommaAux, List.reverse_append]
    rw [trimmedParts_cons, trimmedParts_cons,
      TrimSpace_space_append _ _ (fun x hx => hw x (List.mem_reverse.mp hx))]
  | cons c xs ih =>
    simp only [splitCommaAux]
    by_cases hc : c = ','
    · simp only [hc, if_true, List.reverse_append]
      rw [trimmedParts_cons, trimmedParts_cons,
        TrimSpace_space_append _ _ (fun x hx => hw x (List.mem_reverse.mp hx))]
    · simp only [hc, if_false]
      rw [← List.cons_append]
      exact ih (c :: cur)

theorem matchSep_none_head (c : Char) (cs : List Char) (h : matchSep (c :: cs) = none) :
    c ≠ ',' := by
  intro hc
  subst hc
  unfold matchSep at h
  have : (',' :: cs).dropWhile isReSpace = ',' :: cs := by
    simp only [List.dropWhile_cons]
    have : isReSpace ',' = false := by decide
    simp [this]
  rw [this] at h
  simp at h

theorem matchSep_some (xs rest : List Char) (h : matchSep xs = some rest) :
    ∃ w k w2, xs = w ++ ',' :: k ++ w2 ++ rest ∧ (∀ x ∈ w, isReSpace x = true) ∧
      (∀ x ∈ k, x = ',') ∧ (∀ x ∈ w2, isReSpace x = true) := by
  unfold matchSep at h
  have hx : xs = xs.takeWhile isReSpace ++ xs.dropWhile isReSpace :=
    (List.takeWhile_append_dropWhile _ _).symm
  rcases hd : xs.dropWhile isReSpace with _ | ⟨a, r1⟩
  · rw [hd] at h; simp at h
  · rw [hd] at h hx
    by_cases ha : a = ','
    · subst ha
      simp only [Option.some.injEq] at h
      have hr1 : r1 = r1.takeWhile (fun c => c == ',') ++ r1.dropWhile (fun c => c == ',') :=
        (List.takeWhile_append_dropWhile _ _).symm
      have hr2 : r1.dropWhile (fun c => c == ',') =
          (r1.dropWhile (fun c => c == ',')).takeWhile isReSpace ++
            (r1.dropWhile (fun c => c == ',')).dropWhile isReSpace :=
        (List.takeWhile_append_dropWhile _ _).symm
      rw [h] at hr2
      refine ⟨xs.takeWhile isReSpace, r1.takeWhile (fun c => c == ','),
        (r1.dropWhile (fun c => c == ',')).takeWhile isReSpace, ?_, ?_, ?_, ?_⟩
      · have e : xs = xs.takeWhile isReSpace ++ ',' :: (r1.takeWhile (fun c => c == ',') ++
            ((r1.dropWhile (fun c => c == ',')).takeWhile isReSpace ++ rest)) := by
          rw [← hr2, ← hr1]
          exact hx
        refine e.trans ?_
        simp
      · intro x hx1
        exact List.mem_takeWhile_imp hx1
      · intro x hx1
        have := List.mem_takeWhile_imp hx1
        simpa using this
      · intro x hx1
        exact List.mem_takeWhile_imp hx1
    · exfalso
      split at h
      · rename_i heq
        simp only [List.cons.injEq] at heq
        exact ha heq.1
      · simp at h

theorem reSplitAux_refines :
    ∀ (fuel : Nat) (cs cur : List Char), cs.length < fuel →
      trimmedParts (reSplitAux fuel cs cur) = trimmedParts (splitCommaAux cs cur) := by
  intro fuel
  induction fuel using Nat.strong_induction_on with
  | _ fuel ih =>
    intro cs cur hlen
    cases fuel with
    | zero => omega
    | succ f =>
      cases cs with
      | nil => rfl
      | cons c cs1 =>
        simp only [reSplitAux]
        cases hm : matchSep (c :: cs1) with
        | none =>
          simp only []
          have hc := matchSep_none_head c cs1 hm
          simp only [splitCommaAux, hc, if_false]
          exact ih f (Nat.lt_succ_self f) cs1 (c :: cur) (by simp at hlen; omega)
        | some rest =>
          simp only []
          obtain ⟨w, k, w2, hxs, hw, hk, hw2⟩ := matchSep_some (c :: cs1) rest hm
          have hrl : rest.length < f := by
            have := congrArg List.length hxs
            simp at this hlen
            omega
          rw [trimmedParts_cons, ih f (Nat.lt_succ_self f) rest [] hrl, hxs]
          have e1 : w ++ ',' :: k ++ w2 ++ rest = w ++ (',' :: (k ++ (w2 ++ rest))) := by simp
          rw [e1, splitCommaAux_append_nocomma w _ cur (fun x hx => isReSpace_ne_comma x (hw x hx))]
          simp only [splitCommaAux, if_true, List.reverse_append, List.reverse_reverse]
          rw [trimmedParts_cons,
            TrimSpace_append_space _ _ (fun x hx => isReSpace_isSpace x (hw x hx)),
            trimmedParts_commas k _ hk,
            splitCommaAux_append_nocomma w2 rest []
              (fun x hx => isReSpace_ne_comma x (hw2 x hx))]
          have := trimmedParts_leading_space rest [] w2.reverse
            (fun x hx => isReSpace_isSpace x (hw2 x (List.mem_reverse.mp hx)))
          simp only [List.nil_append] at this
          simp only [List.append_nil]
          rw [this]

/-- The tokens `commaSplitTrim` computes with its regular expression are the trimmed,
non-empty pieces between commas. -/
theorem commaSplitTrim_eq_specTokens (s : String) : commaSplitTrim s = specTokens s := by
  unfold commaSplitTrim specTokens
  have := reSplitAux_refines (s.data.length + 1) s.data [] (Nat.lt_succ_self _)
  unfold trimmedParts at this
  rw [this]

theorem options_eq (env : Env) (c : Client) (log : List Request) (res : Response)
    (hurl : env.urlParses c.BaseUrl = true)
    (hres : env.server log c.optionsRequest = .ok res)
    (hstatus : res.statusCode = 200 ∨ res.statusCode = 204)
    (hver : res.header.get "Tus-Versions" = "" ∨
      (commaSplitTrim (res.header.get "Tus-Versions")).contains ProtocolVersion = true)
    (halg : c.Config.ChecksumAlg = "")
    (hmax : res.header.get "Tus-Max-Size" = "") :
    c.options env log =
      ((optionsExtensions env "" res.header (commaSplitTrim (res.header.get "Tus-Extension"))
          {}).1,
        { c with Opt := some (optionsExtensions env "" res.header
          (commaSplitTrim (res.header.get "Tus-Extension")) {}).2 },
        log ++ [c.optionsRequest]) := by
  unfold Client.options NewRequest
  simp only [hurl, if_true, Client.Do]
  rw [show c.outgoing _ = c.optionsRequest from rfl, hres]
  simp only []
  have h1 : ¬ (res.statusCode ≠ 204 ∧ res.statusCode ≠ 200) := by
    rcases hstatus with h | h <;> simp [h]
  rw [if_neg h1]
  have h2 : ¬ (res.header.get "Tus-Versions" ≠ "" ∧
      (!(commaSplitTrim (res.header.get "Tus-Versions")).contains ProtocolVersion) = true) := by
    rintro ⟨ha, hb⟩
    rcases hver with h | h
    · exact ha h
    · rw [h] at hb
      simp at hb
  rw [if_neg h2, halg]
  rcases hx : optionsExtensions env "" res.header
      (commaSplitTrim (res.header.get "Tus-Extension")) {} with ⟨_ | e, o⟩
  · simp only [hmax, ne_eq, not_true_eq_false, if_false]
  · rfl

/-- The checksum `UploadMgr.Checksum` returns is that of all the bytes written to the
configured hash so far, followed by the bytes of this call. -/
theorem Checksum_value (um : UploadMgr) (h : Hash) (bytes : List Nat)
    (hf : um.client.Config.ChecksumFunc = some h) (ha : um.client.Config.ChecksumAlg ≠ "") :
    (um.Checksum bytes).1 =
      (checksumOf um.client.Config.ChecksumAlg h.digest (h.written ++ bytes), none) ∧
    (um.Checksum bytes).2.client.Config.ChecksumFunc = some (h.Write bytes) := by
  unfold UploadMgr.Checksum
  rw [hf]
  simp only [ha, if_false]
  refine ⟨?_, ?_⟩ <;> first | rfl | trivial

/-- What `ValidateAndSetDefaults` accepts: a chunk size above 1, override keys among PATCH
and DELETE, a store, and the checksum algorithm and function both set or both unset. -/
theorem ValidateAndSetDefaults_ok_iff (c : Config) :
    c.ValidateAndSetDefaults.1 = none ↔
      1 < c.ChunkSizeBytes ∧
      (∀ m, c.HTTPMethodOverrides = some m → ∀ kv ∈ m, kv.1 = "PATCH" ∨ kv.1 = "DELETE") ∧
      c.Store ≠ none ∧ (c.ChecksumFunc = none ↔ c.ChecksumAlg = "") := by
  unfold Config.ValidateAndSetDefaults
  by_cases h1 : c.ChunkSizeBytes ≤ 1
  · simp only [h1, if_true]
    constructor
    · intro h; simp at h
    · intro h; omega
  · simp only [h1, if_false]
    have h1' : 1 < c.ChunkSizeBytes := by omega
    cases hm : c.HTTPMethodOverrides with
    | some m =>
      simp only []
      by_cases h2 : m.any (fun kv => kv.1 != "PATCH" && kv.1 != "DELETE") = true
      · simp only [h2, if_true]
        constructor
        · intro h; simp at h
        · intro h
          exfalso
          obtain ⟨kv, hkv, hb⟩ := List.any_eq_true.mp h2
          have := h.2.1 m rfl kv hkv
          simp only [Bool.and_eq_true, bne_iff_ne, ne_eq] at hb
          tauto
      · simp only [h2]
        have hkeys : ∀ m1, some m = some m1 → ∀ kv ∈ m1, kv.1 = "PATCH" ∨ kv.1 = "DELETE" := by
          intro m1 hm1 kv hkv
          have hm2 : m = m1 := Option.some.inj hm1
          subst hm2
          by_contra hb
          apply h2
          apply List.any_eq_true.mpr
          refine ⟨kv, hkv, ?_⟩
          simp only [Bool.and_eq_true, bne_iff_ne, ne_eq]
          tauto
        have hkeys2 : ∀ (a b : String), (a, b) ∈ m → a = "PATCH" ∨ a = "DELETE" :=
          fun a b hab => hkeys m rfl (a, b) hab
        cases hs : c.Store with
        | none => simp
        | some st =>
          cases hf : c.ChecksumFunc with
          | none =>
            by_cases ha : c.ChecksumAlg = ""
            · simp [ha, h1']
              exact hkeys2
            · simp [ha]
          | some f =>
            by_cases ha : c.ChecksumAlg = ""
            · simp [ha]
            · simp [ha, h1']
              exact hkeys2
    | none =>
      simp only []
      cases hs : c.Store with
      | none => simp
      | some st =>
        cases hf : c.ChecksumFunc with
        | none =>
          by_cases ha : c.ChecksumAlg = ""
          · simp [ha, h1']
          · simp [ha]
        | some f =>
          by_cases ha : c.ChecksumAlg = ""
          · simp [ha]
          · simp [ha, h1']

/-- Where the product cannot overflow (`size * 100 < 2 ^ 63`), `Progress` is
`offset * 100 / size`, lies between 0 and 100 and is monotone in the offset. -/
theorem Progress_bounds_in_range (u1 u2 : Upload) (hsz : u1.size = u2.size)
    (h0 : 0 ≤ u1.offset) (h1 : u1.offset ≤ u2.offset) (h2 : u2.offset ≤ u2.size)
    (h3 : u2.size * 100 < 2 ^ 63) :
    0 ≤ u1.Progress ∧ u1.Progress ≤ u2.Progress ∧ u2.Progress ≤ 100 := by
  by_cases hs : u2.size = 0
  · unfold Upload.Progress
    rw [hsz, if_pos hs, if_pos hs]
    omega
  · have hpos : 0 < u2.size := by omega
    rw [Progress_in_range u1 h0 (by omega) (by omega) (by omega),
      Progress_in_range u2 (by omega) h2 h3 hs, hsz]
    refine ⟨Int.ediv_nonneg (by positivity) (by omega), ?_, ?_⟩
    · exact Int.ediv_le_ediv hpos (by omega)
    · apply Int.ediv_le_of_le_mul hpos
      nlinarith

/-! ## The claims -/

/-- C1 (counterexample): when the server accepts three chunks and reports the offsets 5,
3 and 10, the descriptor offset goes 0, 5, 3, 10 during an `Upload` that returns without
error; when it reports the offset 99 for an upload of size 10, `Upload` returns without
error with the descriptor offset 99. -/
theorem Upload_offset_regresses :
    ((sampleMgr 5).UploadTrace
        (sampleEnv (seqServer [reply204 "5", reply204 "3", reply204 "10"])) 3 []).map
      (fun st => st.upload.offset) = [0, 5, 3, 10] ∧
    ((sampleMgr 5).Upload
        (sampleEnv (seqServer [reply204 "5", reply204 "3", reply204 "10"])) 3 []).map
      (fun r => (r.1, r.2.1.upload.offset)) = some (none, 10) ∧
    ((sampleMgr 5).Upload (sampleEnv (seqServer [reply204 "99"])) 1 []).map
      (fun r => (r.1, r.2.1.upload.offset, r.2.1.upload.size)) = some (none, 99, 10) := by
  refine ⟨by decide!, by decide!, by decide!⟩

/-- C1 (amended): against a transport that answers with a sequence of replies whose 204
replies report offsets that parse, never go back and stay between the engine offset at
the start and the size, and from a state with `0 ≤ descriptor offset ≤ engine offset ≤
size`, every state seen during `Upload` (the state on entry and the state after each
`UploadChunk` step) has `0 ≤ offset ≤ size` for the descriptor, and the descriptor offset
never decreases from one state to the next. -/
theorem Upload_offset_invariant (env : Env) (rs : List Reply) (um : UploadMgr) (fuel : Nat)
    (hsrv : env.server = seqServer rs)
    (h0 : 0 ≤ um.upload.offset) (h1 : um.upload.offset ≤ um.offset)
    (h2 : um.offset ≤ um.upload.size)
    (hrs : repliesWithin um.upload.size um.offset rs = true) :
    (∀ st ∈ um.UploadTrace env fuel [],
      0 ≤ st.upload.offset ∧ st.upload.offset ≤ st.upload.size) ∧
    List.Chain' (fun a b : UploadMgr => a.upload.offset ≤ b.upload.offset)
      (um.UploadTrace env fuel []) := by
  unfold UploadMgr.UploadTrace
  split_ifs with heq
  · simp only [List.mem_cons, List.mem_singleton, forall_eq_or_imp, forall_eq,
      List.not_mem_nil, false_implies, implies_true, and_true, List.chain'_cons,
      List.chain'_singleton, Upload.setOffset]
    exact ⟨⟨⟨h0, by omega⟩, ⟨by omega, by omega⟩⟩, h1⟩
  · exact loopTrace_offsets env rs hsrv fuel um [] h0 h1 h2 (by simpa using hrs)

/-- Witness of C1 (amended): the replies report the offsets 5 and 10 for an upload of
size 10. -/
theorem Upload_offset_invariant_witness :
    (∀ st ∈ (sampleMgr 5).UploadTrace (sampleEnv (seqServer [reply204 "5", reply204 "10"])) 3 [],
      0 ≤ st.upload.offset ∧ st.upload.offset ≤ st.upload.size) ∧
    List.Chain' (fun a b : UploadMgr => a.upload.offset ≤ b.upload.offset)
      ((sampleMgr 5).UploadTrace (sampleEnv (seqServer [reply204 "5", reply204 "10"])) 3 []) :=
  Upload_offset_invariant (sampleEnv (seqServer [reply204 "5", reply204 "10"]))
    [reply204 "5", reply204 "10"] (sampleMgr 5) 3 rfl (by decide) (by decide) (by decide)
    (by decide!)

/-- C2: for every chunk size `c > 0`, payload size `s ≥ 0` and start offset `0 ≤ o ≤ s`,
with a source of exactly `s` bytes, the abort flag not set, an engine URL that parses, and
a server that from the entry of `Upload` on (its upload at offset `o`) accepts every chunk
with 204 and reports the previous offset plus the bytes received, `Upload` returns (any
fuel of at least `s - o` iterations is enough), without error, with the engine offset and
the descriptor offset equal to `s`. -/
theorem Upload_completes (env : Env) (um : UploadMgr) (log0 : List Request) (c s o : Int)
    (fuel : Nat)
    (hc : 0 < c) (ho0 : 0 ≤ o) (hos : o ≤ s)
    (hchunk : um.client.Config.ChunkSizeBytes = c) (hsize : um.upload.size = s)
    (hdata : (um.upload.stream.data.length : Int) = s) (hoff : um.offset = o)
    (hab : um.aborted = false) (hurl : env.urlParses um.url = true)
    (hsrv : ∀ (log1 : List Request) (req : Request),
      o + received log1 + req.body.length ≤ s →
      ∃ res, env.server (log0 ++ log1) req = .ok res ∧ res.statusCode = 204 ∧
        ParseInt (res.header.get "Upload-Offset") =
          (o + received log1 + req.body.length, none))
    (hfuel : (s - o).toNat ≤ fuel) :
    ∃ um1 logf, um.Upload env fuel log0 = some (none, um1, logf) ∧
      um1.offset = s ∧ um1.upload.offset = s := by
  unfold UploadMgr.Upload
  by_cases heq : um.upload.size = um.offset
  · rw [if_pos heq]
    exact ⟨_, _, rfl, by simp only []; omega, by simp only [Upload.setOffset]; omega⟩
  · rw [if_neg heq]
    obtain ⟨um1, logf, e1, e2, e3⟩ := uploadLoop_completes env log0 o s hsrv fuel um []
      (by rw [hoff]; simp [received]) (by omega) (by omega) hsize hdata (by omega) hab hurl
      (by omega)
    rw [List.append_nil] at e1
    refine ⟨um1, logf, e1, e2, ?_⟩
    rcases e3 with e3 | ⟨e3, -⟩
    · exact e3
    · omega

/-- Witness of C2: ten bytes in chunks of three against `accServer 0`. -/
theorem Upload_completes_witness :
    ∃ um1 logf, (sampleMgr 3).Upload (sampleEnv (accServer 0)) 10 [] = some (none, um1, logf) ∧
      um1.offset = 10 ∧ um1.upload.offset = 10 :=
  Upload_completes (sampleEnv (accServer 0)) (sampleMgr 3) [] 3 10 0 10 (by decide) (by decide)
    (by decide) rfl rfl rfl rfl rfl rfl
    (accServer_reports 0 10 (by decide) (by decide)) (by decide)

/-- C3: when `UploadChunk` returns an error, the engine offset and the descriptor offset
are what they were before the attempt, and `Upload`, entered in that state with the loop
condition true, returns that error with the state and the request log the failed attempt
left (no further request); and when the reply to the chunk request is 409 Conflict, the
error is `ErrOffsetMismatch`. -/
theorem UploadChunk_failure (env : Env) (um : UploadMgr) (log : List Request) :
    (∀ e um1 log1, um.UploadChunk env log = (some e, um1, log1) →
      um1.offset = um.offset ∧ um1.upload.offset = um.upload.offset ∧
      (um.offset < um.upload.size → um.aborted = false →
        ∀ fuel, um.Upload env (fuel + 1) log = some (some e, um1, log1))) ∧
    (∀ sent res, (um.UploadChunk env log).2.2 = log ++ [sent] →
      env.server log sent = .ok res → res.statusCode = 409 →
      (um.UploadChunk env log).1 = some .ErrOffsetMismatch) := by
  obtain ⟨-, hs⟩ := UploadChunk_spec env um log
  constructor
  · intro e um1 log1 h
    rw [h] at hs
    rcases hs with ⟨e1, he, ho, hu, -⟩ | ⟨hn, -⟩
    · refine ⟨ho, hu, ?_⟩
      intro hlt hab fuel
      unfold UploadMgr.Upload
      rw [if_neg (by omega)]
      exact uploadLoop_failure env um log fuel e um1 log1 hlt hab h
    · simp at hn
  · intro sent res hl hsrv h409
    have hout : chunkOutcome (env.server log sent) = (0, some .ErrOffsetMismatch) := by
      rw [hsrv]
      unfold chunkOutcome
      simp [h409]
    rcases hs with ⟨e1, he, -, -, -, ⟨hl1, -⟩ | ⟨sent1, hl1, -, -, ho⟩⟩ | ⟨-, sent1, n, hl1, -, -, ho, -⟩
    · rw [hl1] at hl
      simp at hl
    · rw [hl1] at hl
      have : sent1 = sent := by simpa using hl
      subst this
      rw [hout] at ho
      rw [he]
      simp at ho
      rw [ho]
    · rw [hl1] at hl
      have : sent1 = sent := by simpa using hl
      subst this
      rw [hout] at ho
      simp at ho

/-- Witness of C3: the first chunk of `sampleMgr 5` against a server that answers 409. -/
theorem UploadChunk_failure_witness :
    ((sampleMgr 5).UploadChunk (sampleEnv conflictServer) []).1 = some .ErrOffsetMismatch ∧
    ((sampleMgr 5).UploadChunk (sampleEnv conflictServer) []).2.1.offset = 0 ∧
    ((sampleMgr 5).UploadChunk (sampleEnv conflictServer) []).2.1.upload.offset = 0 ∧
    ((sampleMgr 5).Upload (sampleEnv conflictServer) 1 []).map (fun r => (r.1, r.2.2.length)) =
      some (some .ErrOffsetMismatch, 1) := by
  have h := UploadChunk_failure (sampleEnv conflictServer) (sampleMgr 5) []
  have h409 := h.2
    ((sampleMgr 5).client.outgoing
      { method := "PATCH", url := "http://h/files/1",
        header := [("Upload-Offset", ["0"]), ("Content-Length", ["5"]),
          ("Content-Type", ["application/offset+octet-stream"])],
        body := [49, 50, 51, 52, 53] })
    { statusCode := 409, header := [], body := "" } (by decide!) rfl rfl
  have hx : (sampleMgr 5).UploadChunk (sampleEnv conflictServer) [] =
      (some .ErrOffsetMismatch, ((sampleMgr 5).UploadChunk (sampleEnv conflictServer) []).2.1,
        ((sampleMgr 5).UploadChunk (sampleEnv conflictServer) []).2.2) := by
    rw [← h409]
  obtain ⟨g1, g2, g3⟩ := h.1 _ _ _ hx
  refine ⟨h409, g1, g2, ?_⟩
  rw [g3 (by decide) rfl 0]
  simp only [Option.map_some']
  rw [show ((sampleMgr 5).UploadChunk (sampleEnv conflictServer) []).2.2.length = 1 by decide!]

/-- C4 (the code at the failing input): with `crc32` configured and negotiated, the ten
bytes of `sampleUpload` go out in two chunks of five; the value sent with the first chunk
is the checksum of its bytes, the value sent with the second chunk is the checksum of all
ten bytes, which differs from the checksum of the second chunk's bytes. -/
theorem Checksum_of_later_chunk_covers_earlier_chunks :
    (checksumMgr.Upload (sampleEnv (accServer 0)) 2 []).map
        (fun r => r.2.2.map (fun rq => (rq.body, rq.header.get "Tus-Checksum-Algorithm"))) =
      some [([49, 50, 51, 52, 53], checksumOf "crc32" crc32 [49, 50, 51, 52, 53]),
        ([54, 55, 56, 57, 48],
          checksumOf "crc32" crc32 [49, 50, 51, 52, 53, 54, 55, 56, 57, 48])] ∧
    checksumOf "crc32" crc32 [49, 50, 51, 52, 53, 54, 55, 56, 57, 48] ≠
      checksumOf "crc32" crc32 [54, 55, 56, 57, 48] := by
  constructor <;> decide!

/-- C5 (counterexample): an aborted engine at offset 0 of 10 returns from `Upload` without
error and without sending anything, and publishes no notification. -/
theorem Upload_aborted_publishes_nothing :
    ((sampleMgr 5).Abort.Upload (sampleEnv (accServer 0)) 3 []).map
      (fun r => (r.1, r.2.1.notified, r.2.2)) = some (none, 0, []) := by
  decide!

/-- C5 (amended): a call of `Upload` with the offset equal to the size on entry sends
nothing, returns without error and publishes exactly one notification, whatever the abort
flag; a call with the offset different from the size that returns without error and has
sent no chunk publishes no notification and leaves the descriptor offset as it was. -/
theorem Upload_without_chunk (env : Env) (fuel : Nat) (um : UploadMgr) (log : List Request) :
    (um.upload.size = um.offset →
      ∃ um1, um.Upload env fuel log = some (none, um1, log) ∧
        um1.notified = um.notified + 1 ∧ um1.offset = um.offset ∧
        um1.upload.offset = um.offset) ∧
    (um.upload.size ≠ um.offset →
      ∀ um1, um.Upload env fuel log = some (none, um1, log) →
        um1.notified = um.notified ∧ um1.upload.offset = um.upload.offset) := by
  constructor
  · intro h
    unfold UploadMgr.Upload
    rw [if_pos h]
    exact ⟨_, rfl, rfl, rfl, rfl⟩
  · intro h um1 hu
    unfold UploadMgr.Upload at hu
    rw [if_neg h] at hu
    rcases uploadLoop_log_length env fuel um log um1 log hu with ⟨-, h1⟩ | h1
    · rw [h1]; exact ⟨rfl, rfl⟩
    · omega

/-- Witness of C5: an engine whose offset equals the size publishes one notification, and
an aborted engine below the size publishes none. -/
theorem Upload_without_chunk_witness :
    (∃ um1, (NewUploadMgr (sampleClient 5) "http://h/files/1" sampleUpload 10).Upload
        (sampleEnv (accServer 10)) 0 [] = some (none, um1, []) ∧
      um1.notified = 0 + 1 ∧ um1.offset = 10 ∧ um1.upload.offset = 10) ∧
    (sampleMgr 5).Abort.notified = 0 :=
  ⟨(Upload_without_chunk (sampleEnv (accServer 10)) 0
      (NewUploadMgr (sampleClient 5) "http://h/files/1" sampleUpload 10) []).1 rfl,
    ((Upload_without_chunk (sampleEnv (accServer 0)) 3 (sampleMgr 5).Abort []).2 (by decide)
      (sampleMgr 5).Abort rfl).1⟩

/-- C6: for a non-nil descriptor, `CreateOrResumeUpload` is decided by `ResumeUpload`:
when resume succeeds, its engine is returned and the only request sent is the probe; when
resume fails with `ErrUploadNotFound`, the result is exactly that of `CreateUpload` (run
after the resume attempt); any other resume error is returned unchanged, with no engine
and no request other than, at most, the probe. Resume fails with `ErrUploadNotFound`
exactly when the fingerprint is non-empty and either absent from the store or stored with
a URL whose probe is answered 403, 404 or 410. -/
theorem CreateOrResumeUpload_spec (env : Env) (c : Client) (log : List Request) (u : Upload) :
    (∀ um log1, c.ResumeUpload env log (some u) = (.ok um, log1) →
      c.CreateOrResumeUpload env log (some u) = (.ok um, c, log1) ∧
      ∃ url, log1 = log ++ [c.probeRequest url]) ∧
    (∀ log1, c.ResumeUpload env log (some u) = (.error .ErrUploadNotFound, log1) →
      c.CreateOrResumeUpload env log (some u) = c.CreateUpload env log1 (some u)) ∧
    (∀ e log1, c.ResumeUpload env log (some u) = (.error e, log1) → e ≠ .ErrUploadNotFound →
      c.CreateOrResumeUpload env log (some u) = (.error e, c, log1) ∧
      (log1 = log ∨ ∃ url, log1 = log ++ [c.probeRequest url])) ∧
    ((c.ResumeUpload env log (some u)).1 = .error .ErrUploadNotFound ↔
      u.Fingerprint.length ≠ 0 ∧ ∃ store, c.Config.Store = some store ∧
        (store.lookup u.Fingerprint = none ∨
          ∃ url res, store.lookup u.Fingerprint = some url ∧ env.urlParses url = true ∧
            env.server log (c.probeRequest url) = .ok res ∧
            (res.statusCode = 403 ∨ res.statusCode = 404 ∨ res.statusCode = 410))) := by
  refine ⟨?_, ?_, ?_, ?_⟩
  · intro um log1 h
    refine ⟨?_, ?_⟩
    · unfold Client.CreateOrResumeUpload
      simp only [h]
    · rw [ResumeUpload_eq] at h
      split_ifs at h with hf
      · simp at h
      · cases hst : c.Config.Store with
        | none => rw [hst] at h; simp at h
        | some store =>
          rw [hst] at h
          simp only [] at h
          cases hl : store.lookup u.Fingerprint with
          | none => rw [hl] at h; simp at h
          | some url =>
            rw [hl] at h
            simp only [] at h
            split_ifs at h with hu
            · rcases hp : probeOutcome (env.server log (c.probeRequest url)) with ⟨n, _ | e⟩
              · rw [hp] at h
                simp only [Prod.mk.injEq] at h
                exact ⟨url, h.2.symm⟩
              · rw [hp] at h
                simp at h
            · simp at h
  · intro log1 h
    unfold Client.CreateOrResumeUpload
    simp only [h, if_true]
  · intro e log1 h hne
    refine ⟨?_, ?_⟩
    · unfold Client.CreateOrResumeUpload
      simp only [h, if_neg hne]
    · rw [ResumeUpload_eq] at h
      split_ifs at h with hf
      · simp only [Prod.mk.injEq] at h
        exact Or.inl h.2.symm
      · cases hst : c.Config.Store with
        | none =>
          rw [hst] at h
          simp only [Prod.mk.injEq] at h
          exact Or.inl h.2.symm
        | some store =>
          rw [hst] at h
          simp only [] at h
          cases hl : store.lookup u.Fingerprint with
          | none =>
            rw [hl] at h
            simp only [Prod.mk.injEq] at h
            exact Or.inl h.2.symm
          | some url =>
            rw [hl] at h
            simp only [] at h
            split_ifs at h with hu
            · rcases hp : probeOutcome (env.server log (c.probeRequest url)) with ⟨n, _ | e1⟩
              · rw [hp] at h
                simp at h
              · rw [hp] at h
                simp only [Prod.mk.injEq] at h
                exact Or.inr ⟨url, h.2.symm⟩
            · simp only [Prod.mk.injEq] at h
              exact Or.inl h.2.symm
  · rw [ResumeUpload_eq]
    split_ifs with hf
    · simp [hf]
    · cases hst : c.Config.Store with
      | none => simp
      | some store =>
        simp only [Option.some.injEq, exists_eq_left']
        cases hl : store.lookup u.Fingerprint with
        | none => simp [hf]
        | some url =>
          simp only [Option.some.injEq, exists_and_left, exists_eq_left', false_or]
          cases hu : env.urlParses url with
          | false => simp
          | true =>
            simp only [if_true, true_and]
            have key := probeOutcome_notFound (env.server log (c.probeRequest url))
            have hor : ∀ P : Prop, ((some url : Option String) = none ∨ P) ↔ P := by
              intro P; simp
            rw [hor]
            rcases hp : probeOutcome (env.server log (c.probeRequest url)) with ⟨n, _ | e1⟩
            · rw [hp] at key
              simp only [] at key
              simp only []
              constructor
              · intro h; simp at h
              · intro h
                have := key.mpr h.2
                simp at this
            · rw [hp] at key
              simp only [] at key
              simp only []
              constructor
              · intro h
                have h1 : e1 = .ErrUploadNotFound := by simpa using h
                exact ⟨hf, key.mp (by rw [h1])⟩
              · intro h
                have := key.mpr h.2
                simp only [Option.some.injEq] at this
                rw [this]

/-- Witness of C6: with an empty store the resume attempt fails with `ErrUploadNotFound`
and the result is that of `CreateUpload`. -/
theorem CreateOrResumeUpload_spec_witness :
    (sampleClient 5).CreateOrResumeUpload (sampleEnv tusServer) [] (some sampleUpload) =
      (sampleClient 5).CreateUpload (sampleEnv tusServer) [] (some sampleUpload) :=
  (CreateOrResumeUpload_spec (sampleEnv tusServer) (sampleClient 5) [] sampleUpload).2.1 [] rfl

/-- C7: when `CreateUpload` succeeds for a descriptor with a non-empty fingerprint, the
server answered the creation request 201, the store afterwards maps the fingerprint to the
location header resolved against the base URL, the engine is bound to that URL at offset
0, and a `ResumeUpload` that follows immediately probes that URL and, when the probe is
answered 200 with an `Upload-Offset` that parses to `n`, returns the engine bound to that
URL at offset `n` (the resolved URL being one that parses). -/
theorem CreateUpload_then_ResumeUpload (env : Env) (c : Client) (log : List Request) (u : Upload)
    (um : UploadMgr) (c1 : Client) (log1 : List Request)
    (hfp : u.Fingerprint ≠ "")
    (h : c.CreateUpload env log (some u) = (.ok um, c1, log1)) :
    ∃ res url, env.server log (c.createRequest u) = .ok res ∧ res.statusCode = 201 ∧
      url = env.resolveReference c.BaseUrl (res.header.get "Location") ∧
      (∃ store1, c1.Config.Store = some store1 ∧ store1.Get u.Fingerprint = (url, true)) ∧
      um.url = url ∧ um.offset = 0 ∧
      (env.urlParses url = true →
        ∀ res2 n, env.server log1 (c1.probeRequest url) = .ok res2 → res2.statusCode = 200 →
          ParseInt (res2.header.get "Upload-Offset") = (n, none) →
          c1.ResumeUpload env log1 (some u) =
            (.ok (NewUploadMgr c1 url u n), log1 ++ [c1.probeRequest url])) := by
  obtain ⟨res, store, url, hs, h201, hurl0, hst, hl, hc1, hum⟩ :=
    CreateUpload_ok env c log u um c1 log1 h
  refine ⟨res, url, hs, h201, hurl0, ?_, ?_, ?_, ?_⟩
  · refine ⟨_, by rw [hc1], ?_⟩
    unfold MemoryStore.Get MemoryStore.Set
    rw [lookup_mapSet]
  · rw [hum]; rfl
  · rw [hum]; rfl
  · intro hurl res2 n hs2 h200 hp
    rw [ResumeUpload_eq]
    have hlen : u.Fingerprint.length ≠ 0 := fun hz => hfp ((length_eq_zero_iff _).mp hz)
    rw [if_neg hlen]
    have hstore : c1.Config.Store = some (store.Set u.Fingerprint url) := by rw [hc1]
    rw [hstore]
    simp only [MemoryStore.Set, lookup_mapSet, hurl, if_true]
    rw [hs2]
    have hpo : probeOutcome (.ok res2) = (n, none) := by
      unfold probeOutcome
      simp only [h200, if_true]
      rw [hp]
    rw [hpo]

/-- Witness of C7: after `CreateUpload` against `tusServer`, `ResumeUpload` returns an
engine at the offset 7 the server reports, bound to the stored location. -/
theorem CreateUpload_then_ResumeUpload_witness :
    ∃ um2 log2,
      ((sampleClient 5).CreateUpload (sampleEnv tusServer) [] (some sampleUpload)).2.1.ResumeUpload
        (sampleEnv tusServer)
        ((sampleClient 5).CreateUpload (sampleEnv tusServer) [] (some sampleUpload)).2.2
        (some sampleUpload) = (.ok um2, log2) ∧
      um2.offset = 7 ∧ um2.url = "http://h/files/1" := by
  obtain ⟨res, url, h1, -, h3, -, -, -, h7⟩ :=
    CreateUpload_then_ResumeUpload (sampleEnv tusServer) (sampleClient 5) [] sampleUpload
      (NewUploadMgr ((sampleClient 5).CreateUpload (sampleEnv tusServer) []
        (some sampleUpload)).2.1 "http://h/files/1" sampleUpload 0)
      ((sampleClient 5).CreateUpload (sampleEnv tusServer) [] (some sampleUpload)).2.1
      ((sampleClient 5).CreateUpload (sampleEnv tusServer) [] (some sampleUpload)).2.2
      (by decide) rfl
  have hres : res = { statusCode := 201, header := [("Location", ["1"])], body := "" } := by
    have : (sampleEnv tusServer).server [] ((sampleClient 5).createRequest sampleUpload) =
        .ok { statusCode := 201, header := [("Location", ["1"])], body := "" } := rfl
    rw [this] at h1
    exact (Except.ok.inj h1).symm
  have hurl : url = "http://h/files/1" := by
    rw [h3, hres]
    decide!
  subst hurl
  exact ⟨_, _, h7 (by decide)
    { statusCode := 200, header := [("Upload-Offset", ["7"])], body := "" } 7
    rfl rfl (by decide!), rfl, rfl⟩

/-- C8: on a 200/204 discovery response with an acceptable version list, no configured
checksum algorithm and no max-size header, the tokens of the extension list are the
trimmed non-empty pieces between commas; `options` fails with the unknown-extension error
exactly when the lower-case form of some token is not one of the eight recognised names;
otherwise it succeeds and each of the flags creation, creation-defer-length,
creation-with-upload, concatenation, expiration and checksum-trailer is set exactly when
its name is among the lower-cased tokens (`termination` and `checksum` set no flag). -/
theorem options_extensions (env : Env) (c : Client) (log : List Request) (res : Response)
    (hurl : env.urlParses c.BaseUrl = true)
    (hres : env.server log c.optionsRequest = .ok res)
    (hstatus : res.statusCode = 200 ∨ res.statusCode = 204)
    (hver : res.header.get "Tus-Versions" = "" ∨
      (commaSplitTrim (res.header.get "Tus-Versions")).contains ProtocolVersion = true)
    (halg : c.Config.ChecksumAlg = "")
    (hmax : res.header.get "Tus-Max-Size" = "") :
    commaSplitTrim (res.header.get "Tus-Extension") = specTokens (res.header.get "Tus-Extension") ∧
    ((∃ ext, (c.options env log).1 = some (.other ("unknown extension: " ++ ext))) ↔
      ∃ t ∈ commaSplitTrim (res.header.get "Tus-Extension"),
        env.toLower t ∉ knownExtensions) ∧
    ((∀ t ∈ commaSplitTrim (res.header.get "Tus-Extension"), env.toLower t ∈ knownExtensions) →
      (c.options env log).1 = none ∧
      ∃ o, (c.options env log).2.1.Opt = some o ∧
        (o.creation = true ↔
          "creation" ∈ (commaSplitTrim (res.header.get "Tus-Extension")).map env.toLower) ∧
        (o.creationDeferLength = true ↔ "creation-defer-length" ∈
          (commaSplitTrim (res.header.get "Tus-Extension")).map env.toLower) ∧
        (o.creationWithUpload = true ↔ "creation-with-upload" ∈
          (commaSplitTrim (res.header.get "Tus-Extension")).map env.toLower) ∧
        (o.concatenation = true ↔
          "concatenation" ∈ (commaSplitTrim (res.header.get "Tus-Extension")).map env.toLower) ∧
        (o.expiration = true ↔
          "expiration" ∈ (commaSplitTrim (res.header.get "Tus-Extension")).map env.toLower) ∧
        (o.checksumTrailer = true ↔ "checksum-trailer" ∈
          (commaSplitTrim (res.header.get "Tus-Extension")).map env.toLower) ∧
        o.checksum = false) := by
  have heq := options_eq env c log res hurl hres hstatus hver halg hmax
  refine ⟨commaSplitTrim_eq_specTokens _, ?_, ?_⟩
  · rw [heq]
    constructor
    · rintro ⟨ext, hext⟩
      by_contra hno
      have hall : ∀ t ∈ commaSplitTrim (res.header.get "Tus-Extension"),
          env.toLower t ∈ knownExtensions := by
        intro t ht
        by_contra hb
        exact hno ⟨t, ht, hb⟩
      have := (optionsExtensions_known env res.header _ {} hall).1
      rw [this] at hext
      simp at hext
    · intro hbad
      obtain ⟨ext, -, -, he⟩ := optionsExtensions_unknown env res.header _ {} hbad
      exact ⟨ext, he⟩
  · intro hall
    obtain ⟨a, b1, b2, b3, b4, b5, b6, b7, -⟩ := optionsExtensions_known env res.header _ {} hall
    rw [heq]
    refine ⟨a, _, rfl, ?_, ?_, ?_, ?_, ?_, ?_, b7⟩
    · rw [b1]; simp
    · rw [b2]; simp
    · rw [b3]; simp
    · rw [b4]; simp
    · rw [b5]; simp
    · rw [b6]; simp

/-- Witness of C8: the discovery response of `tusServer` lists creation, expiration and
termination, and `options` succeeds on it. -/
theorem options_extensions_witness :
    ((sampleClient 5).options (sampleEnv tusServer) []).1 = none :=
  ((options_extensions (sampleEnv tusServer) (sampleClient 5) []
    { statusCode := 204,
      header := [("Tus-Extension", ["creation, Expiration ,,termination"]),
        ("Tus-Versions", ["0.2.2,1.0.0"])],
      body := "" }
    (by decide) rfl (Or.inr rfl) (Or.inr (by decide!)) rfl (by decide!)).2.2
    (by decide!)).1

/-- C9 (the code at the failing input): a configuration with chunk size 1, which is
greater than 0, valid override map, store and checksum setting, is rejected with the
error whose message is that the chunk size must be greater than zero. -/
theorem ValidateAndSetDefaults_rejects_chunk_size_one :
    (0 : Int) < chunkOneConfig.ChunkSizeBytes ∧
    chunkOneConfig.ValidateAndSetDefaults.1 = some .ErrChuckSize ∧
    Err.message .ErrChuckSize = "chunk size must be greater than zero" ∧
    DefaultConfig.ValidateAndSetDefaults.1 = none := by
  refine ⟨by decide, by decide, by decide, by decide⟩

/-- C10 (the code at the failing input): for a descriptor of 92233720368547759 bytes the
product `offset * 100` leaves the `int64` range at the last offset, so `Progress` is 99 at
offset `size - 1` and -99 at offset `size`. -/
theorem Progress_overflows :
    (hugeUpload 92233720368547758).Progress = 99 ∧
    (hugeUpload 92233720368547759).Progress = -99 ∧
    (0 : Int) ≤ 92233720368547758 ∧ (92233720368547758 : Int) ≤ 92233720368547759 ∧
    (92233720368547759 : Int) ≤ (hugeUpload 92233720368547759).size ∧
    (hugeUpload 92233720368547759).size ≤ maxInt64 := by
  refine ⟨by decide, by decide, by decide, by decide, by decide, by decide⟩

/-! ## Metadata encoding -/

theorem stringBytes_lt (s : String) : ∀ b ∈ stringBytes s, b < 256 := by
  intro b hb
  unfold stringBytes at hb
  obtain ⟨x, -, hx⟩ := List.mem_map.mp hb
  rw [← hx]
  exact x.toNat_lt

theorem b64Encode_eq_specBase64 :
    ∀ (n : Nat) (bs : List Nat), bs.length ≤ n → (∀ b ∈ bs, b < 256) →
      b64Encode bs = specBase64 bs := by
  intro n
  induction n using Nat.strong_induction_on with
  | _ n ih =>
    intro bs hlen hb
    match bs, hlen, hb with
    | [], _, _ => rfl
    | [a], _, hb =>
      have ha : a < 256 := hb a (by simp)
      simp only [b64Encode, specBase64]
      have e1 : a * 16 / 64 = a / 4 := by omega
      have e2 : a * 16 % 64 = a % 4 * 16 := by omega
      rw [e1, e2]
    | [a, b], _, hb =>
      have ha : a < 256 := hb a (by simp)
      have hbb : b < 256 := hb b (by simp)
      simp only [b64Encode, specBase64]
      have e1 : (a * 256 + b) * 4 / 4096 = a / 4 := by omega
      have e2 : (a * 256 + b) * 4 / 64 % 64 = a % 4 * 16 + b / 16 := by omega
      have e3 : (a * 256 + b) * 4 % 64 = b % 16 * 4 := by omega
      rw [e1, e2, e3]
    | a :: b :: c :: rest, hlen, hb =>
      have ha : a < 256 := hb a (by simp)
      have hbb : b < 256 := hb b (by simp)
      have hc : c < 256 := hb c (by simp)
      simp only [b64Encode, specBase64]
      have e1 : (a * 65536 + b * 256 + c) / 262144 = a / 4 := by omega
      have e2 : (a * 65536 + b * 256 + c) / 4096 % 64 = a % 4 * 16 + b / 16 := by omega
      have e3 : (a * 65536 + b * 256 + c) / 64 % 64 = b % 16 * 4 + c / 64 := by omega
      have e4 : (a * 65536 + b * 256 + c) % 64 = c % 64 := by omega
      rw [e1, e2, e3, e4]
      simp only [List.length_cons] at hlen
      rw [ih (n - 3) (by omega) rest (by omega)
        (fun x hx => hb x (by simp [hx]))]

theorem commaJoin_append_head (a b : String) (xs : List String) :
    commaJoin ((a ++ b) :: xs) = a ++ commaJoin (b :: xs) := by
  cases xs with
  | nil => rfl
  | cons y r => simp only [commaJoin, String.append_assoc]

theorem intercalate_go (acc : String) (l : List String) :
    String.intercalate.go acc "," l = commaJoin (acc :: l) := by
  induction l generalizing acc with
  | nil => rfl
  | cons x xs ih =>
    simp only [String.intercalate.go]
    rw [ih, String.append_assoc, commaJoin_append_head, commaJoin_append_head]
    simp only [commaJoin, String.append_assoc]

theorem intercalate_eq_commaJoin (l : List String) : ",".intercalate l = commaJoin l := by
  cases l with
  | nil => rfl
  | cons a as => exact intercalate_go a as

/-- The test vectors of RFC 4648 section 10. -/
theorem specBase64_vectors :
    String.mk (specBase64 (stringBytes "")) = "" ∧
    String.mk (specBase64 (stringBytes "f")) = "Zg==" ∧
    String.mk (specBase64 (stringBytes "fo")) = "Zm8=" ∧
    String.mk (specBase64 (stringBytes "foo")) = "Zm9v" ∧
    String.mk (specBase64 (stringBytes "foob")) = "Zm9vYg==" ∧
    String.mk (specBase64 (stringBytes "fooba")) = "Zm9vYmE=" ∧
    String.mk (specBase64 (stringBytes "foobar")) = "Zm9vYmFy" := by
  decide!

/-- C11: for every metadata mapping (the list gives the entries in the order in which the
map is visited), `EncodedMetadata` is the comma-join of one item per entry in that order,
each item being the key, a space and the standard padded base64 form (RFC 4648) of the
bytes of the value; the empty mapping encodes to the empty string, and the mapping with
the single entry `filename` / `foobar.txt` encodes to `filename Zm9vYmFyLnR4dA==`. -/
theorem EncodedMetadata_spec (u : Upload) :
    u.EncodedMetadata = commaJoin (u.Metadata.map metadataItem) ∧
    ({ u with Metadata := [] } : Upload).EncodedMetadata = "" ∧
    ({ u with Metadata := [("filename", "foobar.txt")] } : Upload).EncodedMetadata =
      "filename Zm9vYmFyLnR4dA==" := by
  refine ⟨?_, rfl, ?_⟩
  · unfold Upload.EncodedMetadata
    rw [intercalate_eq_commaJoin]
    congr 1
    apply List.map_congr_left
    intro kv _
    unfold metadataItem b64encode
    rw [b64Encode_eq_specBase64 _ _ (le_refl _) (stringBytes_lt kv.2)]
  · show ",".intercalate ([("filename", "foobar.txt")].map
      (fun kv => kv.1 ++ " " ++ b64encode kv.2)) = "filename Zm9vYmFyLnR4dA=="
    decide!

/-! ## Location resolution -/

theorem char_of_toNat_lt (P : Char → Prop) (h : ∀ n, n < 128 → P (Char.ofNat n)) (c : Char)
    (hc : c.toNat < 128) : P c := by
  have := h c.toNat hc
  rwa [Char.ofNat_toNat] at this

theorem shouldEscape_of_ge (c : Nat) (mode : Encoding) (hc : 127 ≤ c) :
    shouldEscape c mode = true := by
  have hl : ∀ l : List Nat, (∀ x ∈ l, x < 127) → l.contains c = false := by
    intro l hl
    cases h : l.contains c with
    | false => rfl
    | true =>
      have := hl c (by simpa using h)
      omega
  have h1 := hl (asciiBytes "!$&'()*+,;=:[]<>" ++ [34]) (by decide)
  have h2 := hl (asciiBytes "-_.~") (by decide)
  have h3 := hl (asciiBytes "$&+,/:;=?@") (by decide)
  have h4 := hl (asciiBytes "!()*") (by decide)
  unfold shouldEscape
  rw [h1, h2, h3, h4]
  have a1 : (97 ≤ c && c ≤ 122) = false := by simp; omega
  have a2 : (65 ≤ c && c ≤ 90) = false := by simp; omega
  have a3 : (48 ≤ c && c ≤ 57) = false := by simp; omega
  simp [a1, a2, a3]

theorem pathOf_append (a b : List (List Char)) : pathOf (a ++ b) = pathOf a ++ pathOf b := by
  induction a with
  | nil => rfl
  | cons s rest ih =>
    show '/' :: (s ++ pathOf (rest ++ b)) = '/' :: (s ++ pathOf rest) ++ pathOf b
    rw [ih, List.cons_append, List.append_assoc]

theorem isAlphanum_lt (c : Char) (h : c.isAlphanum = true) : c.toNat < 128 := by
  simp only [Char.isAlphanum, Char.isAlpha, Char.isUpper, Char.isLower, Char.isDigit,
    Bool.or_eq_true, Bool.and_eq_true, decide_eq_true_eq] at h
  have hv : c.toNat = c.val.toNat := rfl
  rcases h with (h | h) | h
  · have : c.val.toNat ≤ 90 := h.2
    omega
  · have : c.val.toNat ≤ 122 := h.2
    omega
  · have : c.val.toNat ≤ 57 := h.2
    omega

theorem contains_lt (l : List Char) (hl : ∀ x ∈ l, x.toNat < 128) (c : Char)
    (h : l.contains c = true) : c.toNat < 128 :=
  hl c (by simpa using h)

/-- The characters that `validEncoded` lets stand in a path: letters, digits and
`-_.~!$&'()*+,;=:@[]/%`. -/
theorem validEncoded_path_chars (p : List Char) :
    validEncoded p .encodePath =
      p.all (fun c => c.isAlphanum || "-_.~!$&'()*+,;=:@[]/%".data.contains c) := by
  unfold validEncoded
  congr 1
  funext c
  by_cases hc : c.toNat < 128
  · refine char_of_toNat_lt (fun c =>
      ("!$&'()*+,;=:@[]%".data.contains c || !shouldEscape c.toNat .encodePath) =
        (c.isAlphanum || "-_.~!$&'()*+,;=:@[]/%".data.contains c)) ?_ c hc
    decide!
  · have h1 : shouldEscape c.toNat .encodePath = true := shouldEscape_of_ge _ _ (by omega)
    have h2 : "!$&'()*+,;=:@[]%".data.contains c = false := by
      cases h : "!$&'()*+,;=:@[]%".data.contains c with
      | false => rfl
      | true => exact absurd (contains_lt _ (by decide) c h) hc
    have h3 : "-_.~!$&'()*+,;=:@[]/%".data.contains c = false := by
      cases h : "-_.~!$&'()*+,;=:@[]/%".data.contains c with
      | false => rfl
      | true => exact absurd (contains_lt _ (by decide) c h) hc
    have h4 : c.isAlphanum = false := by
      cases h : c.isAlphanum with
      | false => rfl
      | true => exact absurd (isAlphanum_lt c h) hc
    rw [h1, h2, h3, h4]
    rfl

/-- The characters that `validEncoded` lets stand in a fragment: letters, digits and
`-_.~!$&'()*+,;=:@[]/?%`. -/
theorem validEncoded_fragment_chars (p : List Char) :
    validEncoded p .encodeFragment =
      p.all (fun c => c.isAlphanum || "-_.~!$&'()*+,;=:@[]/?%".data.contains c) := by
  unfold validEncoded
  congr 1
  funext c
  by_cases hc : c.toNat < 128
  · refine char_of_toNat_lt (fun c =>
      ("!$&'()*+,;=:@[]%".data.contains c || !shouldEscape c.toNat .encodeFragment) =
        (c.isAlphanum || "-_.~!$&'()*+,;=:@[]/?%".data.contains c)) ?_ c hc
    decide!
  · have h1 : shouldEscape c.toNat .encodeFragment = true := shouldEscape_of_ge _ _ (by omega)
    have h2 : "!$&'()*+,;=:@[]%".data.contains c = false := by
      cases h : "!$&'()*+,;=:@[]%".data.contains c with
      | false => rfl
      | true => exact absurd (contains_lt _ (by decide) c h) hc
    have h3 : "-_.~!$&'()*+,;=:@[]/?%".data.contains c = false := by
      cases h : "-_.~!$&'()*+,;=:@[]/?%".data.contains c with
      | false => rfl
      | true => exact absurd (contains_lt _ (by decide) c h) hc
    have h4 : c.isAlphanum = false := by
      cases h : c.isAlphanum with
      | false => rfl
      | true => exact absurd (isAlphanum_lt c h) hc
    rw [h1, h2, h3, h4]
    rfl

/-- The characters of a host that `hostOK` admits: letters, digits and `-_.~!$&'()*+,;=:<>"`. -/
theorem hostOK_chars (c : Char) :
    ((decide (c.toNat < 128) && !shouldEscape c.toNat .encodeHost) && (c != '[' && c != ']')) =
      (c.isAlphanum || ("-_.~!$&'()*+,;=:<>".data ++ [Char.ofNat 34]).contains c) := by
  by_cases hc : c.toNat < 128
  · refine char_of_toNat_lt (fun c =>
      ((decide (c.toNat < 128) && !shouldEscape c.toNat .encodeHost)
          && (c != '[' && c != ']')) =
        (c.isAlphanum || ("-_.~!$&'()*+,;=:<>".data ++ [Char.ofNat 34]).contains c)) ?_ c hc
    decide!
  · have h3 : ("-_.~!$&'()*+,;=:<>".data ++ [Char.ofNat 34]).contains c = false := by
      cases h : ("-_.~!$&'()*+,;=:<>".data ++ [Char.ofNat 34]).contains c with
      | false => rfl
      | true => exact absurd (contains_lt _ (by decide) c h) hc
    have h4 : c.isAlphanum = false := by
      cases h : c.isAlphanum with
      | false => rfl
      | true => exact absurd (isAlphanum_lt c h) hc
    rw [h3, h4]
    simp [hc]

/-- Escapes in a path or fragment are well formed when every `%` is followed by two
hexadecimal digits. -/
theorem unescapeOK_path_pct (x y : Char) (rest : List Char) :
    unescapeOK .encodePath ('%' :: x :: y :: rest) =
      (ishex x && ishex y && unescapeOK .encodePath rest) ∧
    unescapeOK .encodeFragment ('%' :: x :: y :: rest) =
      (ishex x && ishex y && unescapeOK .encodeFragment rest) ∧
    unescapeOK .encodePath ['%', x] = false ∧ unescapeOK .encodePath ['%'] = false ∧
    unescapeOK .encodeFragment ['%', x] = false ∧ unescapeOK .encodeFragment ['%'] = false := by
  refine ⟨?_, ?_, rfl, rfl, rfl, rfl⟩
  · cases hx : ishex x <;> cases hy : ishex y <;> simp [unescapeOK, hx, hy]
  · cases hx : ishex x <;> cases hy : ishex y <;> simp [unescapeOK, hx, hy]

theorem lookup_mapSet_ne {β : Type} (m : List (String × β)) (k k1 : String) (v : β)
    (h : k ≠ k1) : (mapSet m k1 v).lookup k = m.lookup k := by
  unfold mapSet
  have hk : (k == k1) = false := by simpa using h
  simp only [List.lookup, hk]
  induction m with
  | nil => rfl
  | cons p m ih =>
    by_cases hp : p.1 = k1
    · have : (p.1 != k1) = false := by simp [hp]
      rw [List.filter_cons_of_neg (by simp [this])]
      have hkp : (k == p.1) = false := by rw [hp]; exact hk
      cases p with
      | mk a b =>
        simp only [List.lookup]
        simp only at hkp
        rw [hkp]
        exact ih
    · have : (p.1 != k1) = true := by simp [hp]
      rw [List.filter_cons_of_pos (by simp [this])]
      cases p with
      | mk a b =>
        simp only [List.lookup]
        cases (k == a) with
        | true => rfl
        | false => exact ih

theorem lookup_applyCustom_of_mem (custom : Header) :
    ∀ (h : Header) (k : String) (v : List String), (custom.map Prod.fst).Nodup →
      (k, v) ∈ custom → (applyCustom custom h).lookup k = some v := by
  induction custom with
  | nil => intro h k v _ hm; simp at hm
  | cons p rest ih =>
    intro h k v hnd hm
    simp only [List.map_cons, List.nodup_cons] at hnd
    unfold applyCustom
    simp only [List.foldl_cons]
    rcases List.mem_cons.mp hm with hm | hm
    · subst hm
      have hnot : k ∉ rest.map Prod.fst := hnd.1
      have key : ∀ (l : Header) (h0 : Header), k ∉ l.map Prod.fst →
          (l.foldl (fun h kv => mapSet h kv.1 kv.2) h0).lookup k = h0.lookup k := by
        intro l
        induction l with
        | nil => intro h0 _; rfl
        | cons q l ih2 =>
          intro h0 hq
          simp only [List.map_cons, List.mem_cons, not_or] at hq
          simp only [List.foldl_cons]
          rw [ih2 _ hq.2, lookup_mapSet_ne _ _ _ _ hq.1]
      rw [key rest _ hnot]
      exact lookup_mapSet _ _ _
    · exact ih _ k v hnd.2 hm

theorem lookup_applyCustom_of_not_mem (custom : Header) (h : Header) (k : String)
    (hk : k ∉ custom.map Prod.fst) : (applyCustom custom h).lookup k = h.lookup k := by
  unfold applyCustom
  induction custom generalizing h with
  | nil => rfl
  | cons q l ih =>
    simp only [List.map_cons, List.mem_cons, not_or] at hk
    simp only [List.foldl_cons]
    rw [ih _ hk.2, lookup_mapSet_ne _ _ _ _ hk.1]

theorem outgoing_eq (c : Client) (req : Request) :
    c.outgoing req =
      match c.Config.HTTPMethodOverrides with
      | none =>
        { req with header :=
            Header.set (applyCustom (c.Config.Header.getD []) req.header) "Tus-Resumable" "1.0.0" }
      | some m =>
        match m.lookup req.method with
        | some method =>
          { req with
            header := Header.set (Header.set (applyCustom (c.Config.Header.getD []) req.header)
              "Tus-Resumable" "1.0.0") "X-HTTP-Method-Override" req.method,
            method := method }
        | none =>
          { req with header :=
              Header.set (applyCustom (c.Config.Header.getD []) req.header) "Tus-Resumable" "1.0.0" } := by
  rfl

theorem canonical_version : canonicalMIMEHeaderKey "Tus-Resumable" = "Tus-Resumable" := by
  decide

theorem canonical_override :
    canonicalMIMEHeaderKey "X-HTTP-Method-Override" = "X-Http-Method-Override" := by
  decide

theorem get_set_same (h : Header) (k v : String) : (Header.set h k v).get k = v := by
  unfold Header.get Header.set
  rw [lookup_mapSet]

theorem get_set_ne (h : Header) (k k1 v : String)
    (hne : canonicalMIMEHeaderKey k ≠ canonicalMIMEHeaderKey k1) :
    (Header.set h k1 v).get k = h.get k := by
  unfold Header.get Header.set
  rw [lookup_mapSet_ne _ _ _ _ hne]

/-- C13 (amended): the request `Do` hands to the transport has the URL and body of the
request, carries `Tus-Resumable` = 1.0.0, carries every configured custom header under its
configured name with its configured values unless that name is `Tus-Resumable` (or is
`X-Http-Method-Override` while the override applies); when the override map has an entry
for the method `m` of the request, the method is the mapped one and
`X-HTTP-Method-Override` = `m`; when there is no map or no entry for `m`, the method is
unchanged and the override header is what the request and the custom headers had under
that name (none is added). -/
theorem outgoing_carries (c : Client) (req : Request) :
    (c.outgoing req).url = req.url ∧ (c.outgoing req).body = req.body ∧
    (c.outgoing req).header.get "Tus-Resumable" = "1.0.0" ∧
    (∀ m method, c.Config.HTTPMethodOverrides = some m → m.lookup req.method = some method →
      (c.outgoing req).method = method ∧
      (c.outgoing req).header.get "X-HTTP-Method-Override" = req.method) ∧
    ((∀ m, c.Config.HTTPMethodOverrides = some m → m.lookup req.method = none) →
      (c.outgoing req).method = req.method ∧
      (c.outgoing req).header.lookup "X-Http-Method-Override" =
        (applyCustom (c.Config.Header.getD []) req.header).lookup "X-Http-Method-Override") ∧
    (∀ custom, c.Config.Header = some custom → (custom.map Prod.fst).Nodup →
      ∀ k v, (k, v) ∈ custom → k ≠ "Tus-Resumable" →
        (k ≠ "X-Http-Method-Override" ∨
          ∀ m, c.Config.HTTPMethodOverrides = some m → m.lookup req.method = none) →
        (c.outgoing req).header.lookup k = some v) := by
  have hne1 : canonicalMIMEHeaderKey "Tus-Resumable" ≠
      canonicalMIMEHeaderKey "X-HTTP-Method-Override" := by decide
  have hne2 : ("X-Http-Method-Override" : String) ≠ "Tus-Resumable" := by decide
  refine ⟨outgoing_url c req, outgoing_body c req, ?_, ?_, ?_, ?_⟩
  · rw [outgoing_eq]
    cases c.Config.HTTPMethodOverrides with
    | none => exact get_set_same _ _ _
    | some m =>
      cases hm : m.lookup req.method with
      | none => simp only [hm]; exact get_set_same _ _ _
      | some method =>
        simp only [hm]
        rw [get_set_ne _ _ _ _ hne1]
        exact get_set_same _ _ _
  · intro m method ho hl
    rw [outgoing_eq, ho]
    simp only [hl]
    exact ⟨trivial, get_set_same _ _ _⟩
  · intro hno
    rw [outgoing_eq]
    cases ho : c.Config.HTTPMethodOverrides with
    | none =>
      refine ⟨rfl, ?_⟩
      simp only [Header.set, canonical_version]
      exact lookup_mapSet_ne _ _ _ _ hne2
    | some m =>
      have hl := hno m ho
      simp only [hl]
      refine ⟨trivial, ?_⟩
      simp only [Header.set, canonical_version]
      exact lookup_mapSet_ne _ _ _ _ hne2
  · intro custom hc hnd k v hmem hk hor
    have hbase : (applyCustom (c.Config.Header.getD []) req.header).lookup k = some v := by
      rw [hc]
      exact lookup_applyCustom_of_mem custom req.header k v hnd hmem
    have hver : (Header.set (applyCustom (c.Config.Header.getD []) req.header)
        "Tus-Resumable" "1.0.0").lookup k = some v := by
      simp only [Header.set, canonical_version]
      rw [lookup_mapSet_ne _ _ _ _ hk]
      exact hbase
    rw [outgoing_eq]
    cases ho : c.Config.HTTPMethodOverrides with
    | none => exact hver
    | some m =>
      cases hm : m.lookup req.method with
      | none => simp only [hm]; exact hver
      | some method =>
        simp only [hm]
        rcases hor with hor | hor
        · show (Header.set _ "X-HTTP-Method-Override" req.method).lookup k = some v
          simp only [Header.set, canonical_override, canonical_version]
          rw [lookup_mapSet_ne _ _ _ _ hor, lookup_mapSet_ne _ _ _ _ hk]
          exact hbase
        · have := hor m ho
          rw [hm] at this
          simp at this

/-- C13 (counterexample): with the custom header `Tus-Resumable: 0.2.2` configured, the
request handed to the transport carries `Tus-Resumable: 1.0.0` and not the configured
value. -/
theorem outgoing_overwrites_custom_version :
    (versionHeaderClient.Config.Header.getD []).lookup "Tus-Resumable" = some ["0.2.2"] ∧
    (versionHeaderClient.outgoing
      { method := "PATCH", url := "http://h/files/1", header := [], body := [] }).header.lookup
        "Tus-Resumable" = some ["1.0.0"] := by
  constructor <;> decide!

/-- Witness of C13 (amended): a PATCH request through a client that sends PATCH as POST
and has one custom header. -/
theorem outgoing_carries_witness :
    (overrideClient.outgoing
        { method := "PATCH", url := "http://h/files/1", header := [], body := [] }).method =
      "POST" ∧
    (overrideClient.outgoing
        { method := "PATCH", url := "http://h/files/1", header := [], body := [] }).header.get
        "X-HTTP-Method-Override" = "PATCH" ∧
    (overrideClient.outgoing
        { method := "PATCH", url := "http://h/files/1", header := [], body := [] }).header.lookup
        "X-Extra-Header" = some ["some value"] ∧
    (overrideClient.outgoing
        { method := "HEAD", url := "http://h/files/1", header := [], body := [] }).method =
      "HEAD" := by
  have h1 := (outgoing_carries overrideClient
    { method := "PATCH", url := "http://h/files/1", header := [], body := [] }).2.2.2.1
    [("PATCH", "POST")] "POST" rfl (by decide)
  have h2 := (outgoing_carries overrideClient
    { method := "PATCH", url := "http://h/files/1", header := [], body := [] }).2.2.2.2.2
    [("X-Extra-Header", ["some value"])] rfl (by decide) "X-Extra-Header" ["some value"]
    (by decide) (by decide) (Or.inl (by decide))
  have h3 := (outgoing_carries overrideClient
    { method := "HEAD", url := "http://h/files/1", header := [], body := [] }).2.2.2.2.1
    (by
      intro m hm
      have : m = [("PATCH", "POST")] := (Option.some.inj hm).symm
      subst this
      decide)
  exact ⟨h1.1, h1.2, h2, h3.1⟩

/-! ## The offset of a resumed descriptor -/

/-- C14: `NewUploadMgr` takes the offset for the engine only and leaves the offset of the
descriptor as it was, so the two differ from the start when the server reports an offset
other than the descriptor's: resuming the fresh 10-byte descriptor `sampleUpload` on a server
that reports offset 7 gives an engine at offset 7 whose descriptor has `Offset()` 0 and
`Progress()` 0 (not 7 and 70). -/
theorem ResumeUpload_descriptor_offset_stale :
    (∀ (c : Client) (url : String) (u : Upload) (n : Int),
      (NewUploadMgr c url u n).offset = n ∧ (NewUploadMgr c url u n).upload.Offset = u.Offset) ∧
    ((storedClient.ResumeUpload (sampleEnv tusServer) [] (some sampleUpload)).1.toOption.map
      (fun um => (um.offset, um.upload.Offset, um.upload.Progress, um.upload.Size))) =
      some (7, 0, 0, 10) := by
  refine ⟨fun _ _ _ _ => ⟨rfl, rfl⟩, ?_⟩
  decide!

end Tusc
